import Mathlib

/-!
# Verification of the banking-trace-tool conflict-graph export

This development embeds, in Lean 4, the parts of the `banking-trace-tool`
repository that its specification makes claims about:

* the conflict-graph construction and drain protocol of
  `src/graphia_input.rs` (`GraphiaInputHandler::report`,
  `insert_next_transaction`).  The graph operations themselves live in the
  external `prio_graph` crate, which is not part of the repository's
  sources; those operations (`insert_transaction`, `pop`, `unblock`,
  `is_blocked`, `is_empty`) are modelled from the specification's §4.2
  description of the ConflictGraphBuilder, while the drain loop around them
  is translated from `report` itself;
* the priority / requested-compute-units derivation
  (`get_priority_and_requested_cus`);
* the record-processing pipeline at the top of `report` (deserialize,
  sanitize, derive priority, resolve address lookups);
* the window-filter flags of `PacketCounter::handle_event` in
  `src/packet_count.rs`.

Account identifiers and priorities are modelled as `Nat`; the `u64` / `u32`
arithmetic in the modelled code cannot overflow at the values reachable
here (products are bounded by `2^32 * 10^6 < 2^52`), so no wrap-around is
applied.  Rust panics (`unwrap` on a failed borsh decode, division by
zero) are modelled with `Except`.
-/

namespace BankingTrace

/-- A transaction as the conflict-graph builder sees it: the ordered list
of writable account ids, the ordered list of read-only account ids
(`get_account_locks_unchecked` in `insert_next_transaction`), and the
priority computed by `get_priority_and_requested_cus`. -/
structure Tx where
  writable : List Nat
  readonly : List Nat
  priority : Nat
deriving Repr, DecidableEq

/-- Access kind of one account lock, as in `prio_graph::AccessKind`. -/
inductive AccessKind where
  | write
  | read
deriving Repr, DecidableEq

/-- Modelled from the spec: the per-account chain state of the
ConflictGraphBuilder, "mapping each account identifier to the nearest
not-yet-resolved transaction (separately tracked for its last writer and
its last reader(s))" (§3). -/
structure LockState where
  lastWriter : Option Nat
  readers : List Nat
deriving Repr, DecidableEq

/-- The whole per-account chain map, with every account initially
unclaimed. -/
def Locks : Type := Nat → LockState

/-- The empty chain map. -/
def initLocks : Locks := fun _ => ⟨none, []⟩

/-- Point update of the chain map. -/
def setLock (l : Locks) (a : Nat) (s : LockState) : Locks :=
  fun b => if b = a then s else l b

/-- The access list of one transaction, writes first then reads, exactly
as `insert_next_transaction` chains `write_locks` before `read_locks`. -/
def txAccesses (tx : Tx) : List (Nat × AccessKind) :=
  tx.writable.map (fun a => (a, AccessKind.write)) ++
    tx.readonly.map (fun a => (a, AccessKind.read))

/-- Modelled from the spec: processing one account access of transaction
`id` (§4.2 `insert`).  A write conflicts with the account's last writer
and all unresolved readers and takes over the account, clearing the
readers; a read conflicts only with the last writer and joins the reader
list.  The collected conflict predecessors are accumulated in the second
component. -/
def applyAccess (id : Nat) (st : Locks × List Nat) (acc : Nat × AccessKind) :
    Locks × List Nat :=
  let ls := st.1 acc.1
  match acc.2 with
  | AccessKind.write =>
      (setLock st.1 acc.1 ⟨some id, []⟩,
        st.2 ++ ((ls.lastWriter.map (fun w => [w])).getD [] ++ ls.readers))
  | AccessKind.read =>
      (setLock st.1 acc.1 ⟨ls.lastWriter, ls.readers ++ [id]⟩,
        st.2 ++ (ls.lastWriter.map (fun w => [w])).getD [])

/-- Modelled from the spec: inserting one transaction into the builder.
Returns the updated chain map together with the list of *distinct*
blocking predecessors of the new transaction (a predecessor reached
through several accounts is recorded only once, matching "additional
historical conflicts ... are transitively implied, not duplicated as
edges", §4.2). -/
def insertTx (locks : Locks) (id : Nat) (tx : Tx) : Locks × List Nat :=
  let st := (txAccesses tx).foldl (applyAccess id) (locks, [])
  (st.1, st.2.dedup)

/-- One step of the insertion phase of `report`: the next transaction gets
the next insertion index (the length of the predecessor table so far). -/
def buildStep (st : Locks × List (List Nat)) (tx : Tx) :
    Locks × List (List Nat) :=
  let r := insertTx st.1 st.2.length tx
  (r.1, st.2 ++ [r.2])

/-- The insertion phase of `report`: every transaction of the
priority-sorted list is inserted once, in order.  The result is the final
chain map and, for each insertion index, the list of distinct blocking
predecessors recorded for it. -/
def build (txs : List Tx) : Locks × List (List Nat) :=
  txs.foldl buildStep (initLocks, [])

/-- The transaction at insertion index `i` (defaulting to an empty
transaction out of range). -/
def txAt (txs : List Tx) (i : Nat) : Tx :=
  txs.getD i ⟨[], [], 0⟩

/-- The distinct blocking predecessors of the transaction at insertion
index `i`. -/
def predsOf (txs : List Tx) (i : Nat) : List Nat :=
  (build txs).2.getD i []

/-- The blocking-edge relation of the conflict graph: `EdgeRel txs p t`
holds when the builder recorded a blocking edge from `p` to `t`. -/
def EdgeRel (txs : List Tx) (p t : Nat) : Prop :=
  t < txs.length ∧ p ∈ predsOf txs t

instance (txs : List Tx) (p t : Nat) : Decidable (EdgeRel txs p t) := by
  unfold EdgeRel; infer_instance

/-- A transaction touches an account when it locks it for writing or for
reading. -/
def touches (tx : Tx) (a : Nat) : Prop :=
  a ∈ tx.writable ∨ a ∈ tx.readonly

instance (tx : Tx) (a : Nat) : Decidable (touches tx a) := by
  unfold touches; infer_instance

/-- Well-formedness of one transaction's lock set: the writable and
read-only lists are duplicate free and disjoint (the spec's
AccountLockSet invariant, §3). -/
def Wf (tx : Tx) : Prop :=
  tx.writable.Nodup ∧ tx.readonly.Nodup ∧ ∀ a ∈ tx.writable, a ∉ tx.readonly

instance (tx : Tx) : Decidable (Wf tx) := by
  unfold Wf; infer_instance

example :
    predsOf [⟨[0], [], 30⟩, ⟨[0], [1], 20⟩, ⟨[], [1], 10⟩] 1 = [0] := by
  decide

example :
    predsOf [⟨[0], [], 30⟩, ⟨[0], [1], 20⟩, ⟨[], [1], 10⟩] 2 = [] := by
  decide

/-- The state of the drain loop of `report` (lines 140–174 of
`graphia_input.rs`): the builder's ready queue and per-node remaining
in-degree (modelled from the spec's §4.2 `pop`/`unblock` description),
plus the node list, layer list and edge list accumulated for the exported
graph document. -/
structure DrainSt where
  queue : List Nat
  blocked : Nat → Nat
  nodes : List Nat
  layers : List (List Nat)
  edges : List (Nat × Nat)

/-- The successors of node `p` in the conflict graph: every transaction
that holds a blocking edge from `p`. -/
def succsOf (txs : List Tx) (p : Nat) : List Nat :=
  (List.range txs.length).filter (fun t => decide (p ∈ predsOf txs t))

/-- Modelled from the spec: resolving the edge `p → t` during
`unblock(p)` decrements `t`'s effective in-degree; when it reaches zero,
`t` is newly ready: it joins the ready queue and — since
`is_blocked(t)` is now false — the edge `p → t` is surfaced to the
exported edge list (`report`, lines 158–173). -/
def relax (p : Nat) (st : DrainSt) (t : Nat) : DrainSt :=
  let b := st.blocked t - 1
  let blocked' : Nat → Nat := fun x => if x = t then b else st.blocked x
  if b = 0 then
    { st with
        blocked := blocked'
        queue := st.queue ++ [t]
        edges := st.edges ++ [(p, t)] }
  else
    { st with blocked := blocked' }

/-- Modelled from the spec: `unblock(p)` resolves every pending edge out
of `p`. -/
def unblockNode (txs : List Tx) (st : DrainSt) (p : Nat) : DrainSt :=
  (succsOf txs p).foldl (relax p) st

/-- Repeatedly popping the ready queue with selection function `sel`
until it yields the none-signal; the fuel argument bounds the number of
pops by the queue length. -/
def popAllF (sel : List Nat → Option Nat) : Nat → List Nat → List Nat
  | 0, _ => []
  | fuel + 1, q =>
      match sel q with
      | none => []
      | some i => i :: popAllF sel fuel (q.erase i)

/-- The pop phase of one drain iteration: pop until the none-signal. -/
def popAll (sel : List Nat → Option Nat) (q : List Nat) : List Nat :=
  popAllF sel q.length q

/-- One iteration of the drain loop of `report`: pop every currently
ready transaction into one layer, append each to the node list, then
unblock the popped nodes in pop order, collecting newly surfaced
edges. -/
def layerStep (txs : List Tx) (sel : List Nat → Option Nat)
    (st : DrainSt) : DrainSt :=
  let layer := popAll sel st.queue
  let st1 : DrainSt :=
    { st with
        queue := []
        nodes := st.nodes ++ layer
        layers := st.layers ++ [layer] }
  layer.foldl (unblockNode txs) st1

/-- The drain state right after the insertion phase: transactions with no
blocking predecessor are ready (queued in insertion order), every
in-degree is the number of distinct blocking predecessors, and nothing
has been emitted yet. -/
def initSt (txs : List Tx) : DrainSt :=
  { queue := (List.range txs.length).filter (fun t => decide (predsOf txs t = []))
    blocked := fun t => (predsOf txs t).length
    nodes := []
    layers := []
    edges := [] }

/-- The drain loop of `report`: iterate `layerStep` until the builder is
empty (every inserted transaction has been popped); the fuel bounds the
number of iterations. -/
def drainF (txs : List Tx) (sel : List Nat → Option Nat) :
    Nat → DrainSt → DrainSt
  | 0, st => st
  | fuel + 1, st =>
      if st.nodes.length = txs.length then st
      else drainF txs sel fuel (layerStep txs sel st)

/-- The whole drain protocol of `report` on the priority-sorted
transaction list `txs`, popping with selection function `sel`.  One layer
iteration pops at least one transaction, so `txs.length` iterations
suffice. -/
def drain (txs : List Tx) (sel : List Nat → Option Nat) : DrainSt :=
  drainF txs sel txs.length (initSt txs)

/-- Validity of a pop-selection function with respect to a priority
assignment: popping an empty ready queue yields the none-signal, and
popping a non-empty queue yields a member of maximal priority.  The code
constrains the pop choice only this far: `PriorityIndex`'s `Ord`
(`graphia_input.rs`, lines 97–101) compares priorities alone, and the
order in which the underlying priority queue serves equal-priority
entries is internal to the `prio_graph` crate. -/
def SelValid (prio : Nat → Nat) (sel : List Nat → Option Nat) : Prop :=
  sel [] = none ∧
    ∀ q : List Nat, q ≠ [] →
      ∃ i, sel q = some i ∧ i ∈ q ∧ ∀ j ∈ q, prio j ≤ prio i

/-- The priority of the transaction at insertion index `i`. -/
def prioOf (txs : List Tx) (i : Nat) : Nat :=
  (txAt txs i).priority

/-- A selection function choosing, among maximal-priority entries, the
one queued first. -/
def selFirst (prio : Nat → Nat) (q : List Nat) : Option Nat :=
  q.foldl
    (fun acc i =>
      match acc with
      | none => some i
      | some j => if prio j < prio i then some i else acc)
    none

/-- A selection function choosing, among maximal-priority entries, the
one queued last. -/
def selLast (prio : Nat → Nat) (q : List Nat) : Option Nat :=
  q.foldl
    (fun acc i =>
      match acc with
      | none => some i
      | some j => if prio j ≤ prio i then some i else acc)
    none

/-- The spec's §8 three-transaction scenario: layer 1 = {T1, T3},
layer 2 = {T2}, edges = {T1 → T2}. -/
example :
    (drain [⟨[0], [], 30⟩, ⟨[0], [1], 20⟩, ⟨[], [1], 10⟩]
        (selFirst (prioOf [⟨[0], [], 30⟩, ⟨[0], [1], 20⟩, ⟨[], [1], 10⟩]))).layers
      = [[0, 2], [1]] := by
  decide

example :
    (drain [⟨[0], [], 30⟩, ⟨[0], [1], 20⟩, ⟨[], [1], 10⟩]
        (selFirst (prioOf [⟨[0], [], 30⟩, ⟨[0], [1], 20⟩, ⟨[], [1], 10⟩]))).edges
      = [(0, 1)] := by
  decide

/-! ## Window-filter flags of `PacketCounter` (`packet_count.rs`) -/

/-- The window-filter portion of `PacketCounter`'s state
(`packet_count.rs`, lines 24–31): the optional inclusive bounds and the
two gating flags.  The metric fields are omitted: they never feed back
into `started` or `done`. -/
structure PacketCounterW where
  startTs : Option Nat
  endTs : Option Nat
  started : Bool
  done : Bool
deriving Repr, DecidableEq

/-- `PacketCounter::new` (lines 66–79): `started` begins true exactly
when no lower bound is given; `done` begins false. -/
def PacketCounterW.new (s e : Option Nat) : PacketCounterW :=
  ⟨s, e, s.isNone, false⟩

/-- The flag updates of `PacketCounter::handle_event` (lines 143–158):
once `done`, the handler returns immediately; otherwise `started` absorbs
`position >= start` (true when no lower bound) and `done` absorbs
`position > end` (false when no upper bound).  Event positions are
modelled as natural numbers. -/
def handleEventFlags (st : PacketCounterW) (pos : Nat) : PacketCounterW :=
  if st.done then st
  else
    { st with
        started := st.started ||
          (match st.startTs with
            | some s => decide (s ≤ pos)
            | none => true)
        done := st.done ||
          (match st.endTs with
            | some e => decide (e < pos)
            | none => false) }

/-- The `(started, done)` pair observed after each event of a run that
begins from a fresh `PacketCounter` with the given bounds. -/
def flagsTrace (s e : Option Nat) (events : List Nat) : List (Bool × Bool) :=
  (events.scanl handleEventFlags (PacketCounterW.new s e)).tail.map
    (fun st => (st.started, st.done))

example :
    flagsTrace none (some 5) [1, 3, 5, 6]
      = [(true, false), (true, false), (true, false), (true, true)] := by
  decide

/-! ## Priority and requested compute units (`get_priority_and_requested_cus`) -/

/-- A decoded `ComputeBudgetInstruction`, as matched in
`get_priority_and_requested_cus` (`graphia_input.rs`, lines 260–274).
The `units`, `additional_fee` and `SetComputeUnitLimit` payloads are
`u32` in the source and the compute-unit price is `u64`; they are
modelled as `Nat`. -/
inductive CbIx where
  | requestUnitsDeprecated (units additionalFee : Nat)
  | requestHeapFrame
  | setComputeUnitLimit (units : Nat)
  | setComputeUnitPrice (price : Nat)
  | setLoadedAccountsDataSizeLimit
deriving Repr, DecidableEq

/-- One program instruction of a transaction as
`get_priority_and_requested_cus` classifies it: either its program id is
not the compute-budget program, or it is, in which case the borsh decode
of its data yields a `ComputeBudgetInstruction` (`some`) or fails
(`none`, which the source `unwrap`s — a panic). -/
inductive ProgIx where
  | nonCb
  | cb (decoded : Option CbIx)
deriving Repr, DecidableEq

/-- The accumulator loop of `get_priority_and_requested_cus` (lines
250–275): `(non_compute_budget_ix_count, priority, requested_cus)`,
threaded over the instruction list.  A compute-budget instruction whose
data fails to decode panics (`unwrap`), and the deprecated
request-units instruction with `units = 0` panics (division by zero);
both are modelled as `Except.error`. -/
def cbFold (acc : Nat × Nat × Option Nat) :
    List ProgIx → Except Unit (Nat × Nat × Option Nat)
  | [] => Except.ok acc
  | ProgIx.nonCb :: rest => cbFold (acc.1 + 1, acc.2.1, acc.2.2) rest
  | ProgIx.cb none :: _ => Except.error ()
  | ProgIx.cb (some ix) :: rest =>
      match ix with
      | CbIx.requestUnitsDeprecated units fee =>
          if units = 0 then Except.error ()
          else cbFold (acc.1, fee * 1000000 / units, some units) rest
      | CbIx.requestHeapFrame => cbFold acc rest
      | CbIx.setComputeUnitLimit units => cbFold (acc.1, acc.2.1, some units) rest
      | CbIx.setComputeUnitPrice price => cbFold (acc.1, price, acc.2.2) rest
      | CbIx.setLoadedAccountsDataSizeLimit => cbFold acc rest

/-- `get_priority_and_requested_cus` (lines 248–283): the final priority,
and the requested compute units defaulting to
`non_compute_budget_ix_count * 200_000` when never set, then raised to at
least `1_400_000` by `.max(1_400_000)`. -/
def getPriorityAndRequestedCus (ixs : List ProgIx) : Except Unit (Nat × Nat) :=
  match cbFold (0, 0, none) ixs with
  | Except.error e => Except.error e
  | Except.ok (count, priority, requested) =>
      Except.ok (priority, max (requested.getD (count * 200000)) 1400000)

example :
    getPriorityAndRequestedCus [ProgIx.cb (some (CbIx.setComputeUnitLimit 100))]
      = Except.ok (0, 1400000) := rfl

example :
    getPriorityAndRequestedCus
        [ProgIx.nonCb, ProgIx.cb (some (CbIx.setComputeUnitPrice 42)), ProgIx.nonCb]
      = Except.ok (42, 1400000) := rfl

example :
    getPriorityAndRequestedCus
        [ProgIx.cb (some (CbIx.setComputeUnitLimit 2000000)), ProgIx.nonCb]
      = Except.ok (0, 2000000) := rfl

/-- The value the spec claims for the requested compute units: the
explicitly set compute-unit limit, i.e. the payload of the last
`SetComputeUnitLimit` or deprecated request-units instruction, if any.
This is the claim-side recomputation used to compare
`get_priority_and_requested_cus` against the specification's wording. -/
def explicitCuLimit : List ProgIx → Option Nat
  | [] => none
  | ProgIx.cb (some (CbIx.requestUnitsDeprecated units _)) :: rest =>
      (explicitCuLimit rest).orElse (fun _ => some units)
  | ProgIx.cb (some (CbIx.setComputeUnitLimit units)) :: rest =>
      (explicitCuLimit rest).orElse (fun _ => some units)
  | _ :: rest => explicitCuLimit rest

/-- The number of instructions whose program is not the compute-budget
program. -/
def nonCbCount : List ProgIx → Nat
  | [] => 0
  | ProgIx.nonCb :: rest => nonCbCount rest + 1
  | ProgIx.cb _ :: rest => nonCbCount rest

/-! ## The record pipeline at the top of `report` (lines 63–81) -/

/-- One traced packet record as the pipeline of `report` distinguishes
its fate: whether `bincode::deserialize::<VersionedTransaction>`
succeeds, whether `SanitizedVersionedTransaction::try_from` succeeds, the
instruction list fed to `get_priority_and_requested_cus`, and whether
`SanitizedTransaction::try_new` (address-lookup resolution) succeeds. -/
structure TraceRecord where
  deserOk : Bool
  svtOk : Bool
  ixs : List ProgIx
  resolveOk : Bool
deriving Repr, DecidableEq

/-- The record pipeline of `report` (lines 63–81): records failing
deserialization or sanitization are dropped (`filter_map … .ok()`), the
priority computation runs next (and, being an `unwrap` in the source, a
failure there aborts the whole run), and records failing address-lookup
resolution are dropped afterwards.  Yields the `(priority,
requested_cus)` tuples of the surviving records in order. -/
def collectTuples : List TraceRecord → Except Unit (List (Nat × Nat))
  | [] => Except.ok []
  | r :: rest =>
      if r.deserOk = false then collectTuples rest
      else if r.svtOk = false then collectTuples rest
      else
        match getPriorityAndRequestedCus r.ixs with
        | Except.error e => Except.error e
        | Except.ok pr =>
            if r.resolveOk then (collectTuples rest).map (fun l => pr :: l)
            else collectTuples rest

example :
    collectTuples
        [⟨false, true, [], true⟩, ⟨true, true, [ProgIx.nonCb], true⟩]
      = Except.ok [(0, 1400000)] := rfl

example :
    collectTuples [⟨true, true, [ProgIx.cb none], true⟩]
      = Except.error () := rfl

/-- The blocking predecessors one account access contributes, read off
the account's chain state: a write conflicts with the last writer and the
unresolved readers, a read only with the last writer. -/
def contribution : AccessKind → LockState → List Nat
  | AccessKind.write, s => (s.lastWriter.map (fun w => [w])).getD [] ++ s.readers
  | AccessKind.read, s => (s.lastWriter.map (fun w => [w])).getD []

/-- The chain-state update one account access of transaction `id`
performs: a write takes over the account and clears its readers, a read
joins the reader list. -/
def updLock : AccessKind → Nat → LockState → LockState
  | AccessKind.write, id, _ => ⟨some id, []⟩
  | AccessKind.read, id, s => ⟨s.lastWriter, s.readers ++ [id]⟩

/-- The comparison `PriorityIndex::cmp` of `graphia_input.rs` (lines
97–101) on `(priority, index)` pairs: it compares the priorities alone
and ignores the insertion index. -/
def priorityIndexCmp (a b : Nat × Nat) : Ordering :=
  compare a.1 b.1

/-! ## Build-phase lemmas -/

theorem applyAccess_eq (id : Nat) (st : Locks × List Nat) (a : Nat)
    (k : AccessKind) :
    applyAccess id st (a, k) =
      (setLock st.1 a (updLock k id (st.1 a)), st.2 ++ contribution k (st.1 a)) := by
  cases k <;> rfl

theorem mem_contribution {p : Nat} {k : AccessKind} {s : LockState} :
    p ∈ contribution k s ↔
      s.lastWriter = some p ∨ (k = AccessKind.write ∧ p ∈ s.readers) := by
  cases k <;> cases h : s.lastWriter <;>
    simp [contribution, h, eq_comm]

theorem foldl_applyAccess_acc (id : Nat) (accs : List (Nat × AccessKind)) :
    ∀ (l : Locks) (ps : List Nat),
      accs.foldl (applyAccess id) (l, ps) =
        ((accs.foldl (applyAccess id) (l, [])).1,
          ps ++ (accs.foldl (applyAccess id) (l, [])).2) := by
  induction accs with
  | nil => intro l ps; simp
  | cons ak rest ih =>
      intro l ps
      obtain ⟨a, k⟩ := ak
      have h1 : applyAccess id (l, ps) (a, k) =
          (setLock l a (updLock k id (l a)), ps ++ contribution k (l a)) :=
        applyAccess_eq id (l, ps) a k
      have h2 : applyAccess id (l, ([] : List Nat)) (a, k) =
          (setLock l a (updLock k id (l a)), [] ++ contribution k (l a)) :=
        applyAccess_eq id (l, []) a k
      rw [List.foldl_cons, List.foldl_cons, h1, h2]
      rw [ih (setLock l a (updLock k id (l a))) (ps ++ contribution k (l a)),
        ih (setLock l a (updLock k id (l a))) ([] ++ contribution k (l a))]
      simp

theorem foldAccess_spec (id : Nat) (accs : List (Nat × AccessKind)) :
    ∀ (l : Locks), (accs.map Prod.fst).Nodup →
      (∀ b, b ∉ accs.map Prod.fst →
          ((accs.foldl (applyAccess id) (l, [])).1) b = l b) ∧
      (∀ a k, (a, k) ∈ accs →
          ((accs.foldl (applyAccess id) (l, [])).1) a = updLock k id (l a)) ∧
      (accs.foldl (applyAccess id) (l, [])).2 =
        accs.flatMap (fun ak => contribution ak.2 (l ak.1)) := by
  induction accs with
  | nil => intro l _; simp
  | cons ak rest ih =>
      intro l hnd
      obtain ⟨a, k⟩ := ak
      simp only [List.map_cons, List.nodup_cons] at hnd
      obtain ⟨ha, hndrest⟩ := hnd
      have step : applyAccess id (l, ([] : List Nat)) (a, k) =
          (setLock l a (updLock k id (l a)), [] ++ contribution k (l a)) :=
        applyAccess_eq id (l, []) a k
      obtain ⟨ih1, ih2, ih3⟩ := ih (setLock l a (updLock k id (l a))) hndrest
      have hsetOther : ∀ b, b ≠ a → setLock l a (updLock k id (l a)) b = l b := by
        intro b hb
        simp [setLock, hb]
      have hsetSelf : setLock l a (updLock k id (l a)) a = updLock k id (l a) := by
        simp [setLock]
      refine ⟨?_, ?_, ?_⟩
      · intro b hb
        simp only [List.map_cons, List.mem_cons, not_or] at hb
        rw [List.foldl_cons, step, List.nil_append,
          foldl_applyAccess_acc id rest (setLock l a (updLock k id (l a)))
            (contribution k (l a))]
        exact (ih1 b hb.2).trans (hsetOther b hb.1)
      · intro a' k' hmem
        rw [List.foldl_cons, step, List.nil_append,
          foldl_applyAccess_acc id rest (setLock l a (updLock k id (l a)))
            (contribution k (l a))]
        rcases List.mem_cons.mp hmem with heq | hmemrest
        · simp only [Prod.mk.injEq] at heq
          rw [heq.1, heq.2]
          exact (ih1 a ha).trans hsetSelf
        · have ha' : a' ∈ rest.map Prod.fst :=
            List.mem_map.mpr ⟨(a', k'), hmemrest, rfl⟩
          have hne : a' ≠ a := by
            intro h
            exact ha (h ▸ ha')
          rw [ih2 a' k' hmemrest, hsetOther a' hne]
      · rw [List.foldl_cons, step, List.nil_append,
          foldl_applyAccess_acc id rest (setLock l a (updLock k id (l a)))
            (contribution k (l a))]
        simp only [List.flatMap_cons]
        congr 1
        rw [ih3]
        apply List.flatMap_congr
        intro ak' hmem
        have hne : ak'.1 ≠ a := by
          intro h
          exact ha (h ▸ List.mem_map.mpr ⟨ak', hmem, rfl⟩)
        rw [hsetOther ak'.1 hne]

theorem txAccesses_map_fst (tx : Tx) :
    (txAccesses tx).map Prod.fst = tx.writable ++ tx.readonly := by
  unfold txAccesses
  rw [List.map_append, List.map_map, List.map_map]
  simp [Function.comp_def]

theorem txAccesses_fst_nodup {tx : Tx} (hwf : Wf tx) :
    ((txAccesses tx).map Prod.fst).Nodup := by
  rw [txAccesses_map_fst]
  exact List.Nodup.append hwf.1 hwf.2.1 (fun a ha hb => hwf.2.2 a ha hb)

theorem mem_txAccesses {tx : Tx} {a : Nat} {k : AccessKind} :
    (a, k) ∈ txAccesses tx ↔
      (k = AccessKind.write ∧ a ∈ tx.writable) ∨
        (k = AccessKind.read ∧ a ∈ tx.readonly) := by
  simp only [txAccesses, List.mem_append, List.mem_map, Prod.mk.injEq]
  constructor
  · rintro (⟨b, hb, rfl, rfl⟩ | ⟨b, hb, rfl, rfl⟩)
    · exact Or.inl ⟨rfl, hb⟩
    · exact Or.inr ⟨rfl, hb⟩
  · rintro (⟨rfl, hb⟩ | ⟨rfl, hb⟩)
    · exact Or.inl ⟨a, hb, rfl, rfl⟩
    · exact Or.inr ⟨a, hb, rfl, rfl⟩

theorem insertTx_fst_write (locks : Locks) (id : Nat) {tx : Tx}
    (hwf : Wf tx) {a : Nat} (ha : a ∈ tx.writable) :
    (insertTx locks id tx).1 a = ⟨some id, []⟩ :=
  (foldAccess_spec id (txAccesses tx) locks (txAccesses_fst_nodup hwf)).2.1
    a AccessKind.write (mem_txAccesses.mpr (Or.inl ⟨rfl, ha⟩))

theorem insertTx_fst_read (locks : Locks) (id : Nat) {tx : Tx}
    (hwf : Wf tx) {a : Nat} (ha : a ∈ tx.readonly) :
    (insertTx locks id tx).1 a =
      ⟨(locks a).lastWriter, (locks a).readers ++ [id]⟩ :=
  (foldAccess_spec id (txAccesses tx) locks (txAccesses_fst_nodup hwf)).2.1
    a AccessKind.read (mem_txAccesses.mpr (Or.inr ⟨rfl, ha⟩))

theorem insertTx_fst_other (locks : Locks) (id : Nat) {tx : Tx}
    (hwf : Wf tx) {a : Nat} (ha : a ∉ tx.writable) (hb : a ∉ tx.readonly) :
    (insertTx locks id tx).1 a = locks a := by
  refine (foldAccess_spec id (txAccesses tx) locks (txAccesses_fst_nodup hwf)).1
    a ?_
  rw [txAccesses_map_fst]
  simp [ha, hb]

theorem insertTx_snd_nodup (locks : Locks) (id : Nat) (tx : Tx) :
    (insertTx locks id tx).2.Nodup :=
  List.nodup_dedup _

theorem mem_insertTx_snd {locks : Locks} {id : Nat} {tx : Tx}
    (hwf : Wf tx) {p : Nat} :
    p ∈ (insertTx locks id tx).2 ↔
      (∃ a ∈ tx.writable, (locks a).lastWriter = some p ∨ p ∈ (locks a).readers) ∨
        (∃ a ∈ tx.readonly, (locks a).lastWriter = some p) := by
  show p ∈ ((txAccesses tx).foldl (applyAccess id) (locks, [])).2.dedup ↔ _
  rw [List.mem_dedup,
    (foldAccess_spec id (txAccesses tx) locks (txAccesses_fst_nodup hwf)).2.2,
    List.mem_flatMap]
  constructor
  · rintro ⟨⟨a, k⟩, hmem, hp⟩
    rcases mem_txAccesses.mp hmem with ⟨rfl, ha⟩ | ⟨rfl, ha⟩
    · rcases mem_contribution.mp hp with hw | ⟨_, hr⟩
      · exact Or.inl ⟨a, ha, Or.inl hw⟩
      · exact Or.inl ⟨a, ha, Or.inr hr⟩
    · rcases mem_contribution.mp hp with hw | ⟨hk, _⟩
      · exact Or.inr ⟨a, ha, hw⟩
      · cases hk
  · rintro (⟨a, ha, hw | hr⟩ | ⟨a, ha, hw⟩)
    · exact ⟨(a, AccessKind.write), mem_txAccesses.mpr (Or.inl ⟨rfl, ha⟩),
        mem_contribution.mpr (Or.inl hw)⟩
    · exact ⟨(a, AccessKind.write), mem_txAccesses.mpr (Or.inl ⟨rfl, ha⟩),
        mem_contribution.mpr (Or.inr ⟨rfl, hr⟩)⟩
    · exact ⟨(a, AccessKind.read), mem_txAccesses.mpr (Or.inr ⟨rfl, ha⟩),
        mem_contribution.mpr (Or.inl hw)⟩

theorem build_append (txs : List Tx) (tx : Tx) :
    build (txs ++ [tx]) = buildStep (build txs) tx := by
  unfold build
  rw [List.foldl_append]
  rfl

theorem build_snd_length (txs : List Tx) : (build txs).2.length = txs.length := by
  induction txs using List.reverseRecOn with
  | nil => rfl
  | append_singleton xs x ih =>
      rw [build_append]
      unfold buildStep
      simp [ih]

theorem predsOf_append_lt {txs : List Tx} {i : Nat} (h : i < txs.length)
    (tx : Tx) : predsOf (txs ++ [tx]) i = predsOf txs i := by
  unfold predsOf
  rw [build_append]
  unfold buildStep
  exact List.getD_append _ _ _ _ (build_snd_length txs ▸ h)

theorem predsOf_append_eq (txs : List Tx) (tx : Tx) :
    predsOf (txs ++ [tx]) txs.length =
      (insertTx (build txs).1 txs.length (txAt (txs ++ [tx]) txs.length)).2 := by
  unfold predsOf
  rw [build_append]
  unfold buildStep
  have hlen := build_snd_length txs
  have hAt : txAt (txs ++ [tx]) txs.length = tx := by
    unfold txAt
    rw [List.getD_append_right _ _ _ _ (le_refl txs.length)]
    simp
  rw [hAt, ← hlen]
  rw [List.getD_append_right _ _ _ _ (le_refl (build txs).2.length)]
  simp

theorem predsOf_oob {txs : List Tx} {i : Nat} (h : txs.length ≤ i) :
    predsOf txs i = [] := by
  unfold predsOf
  exact List.getD_eq_default _ _ (build_snd_length txs ▸ h)

theorem txAt_append_lt {txs : List Tx} {i : Nat} (h : i < txs.length)
    (tx : Tx) : txAt (txs ++ [tx]) i = txAt txs i := by
  unfold txAt
  exact List.getD_append _ _ _ _ h

theorem txAt_append_eq (txs : List Tx) (tx : Tx) :
    txAt (txs ++ [tx]) txs.length = tx := by
  unfold txAt
  rw [List.getD_append_right _ _ _ _ (le_refl txs.length)]
  simp

theorem predsOf_nodup (txs : List Tx) (i : Nat) : (predsOf txs i).Nodup := by
  have hall : ∀ ps ∈ (build txs).2, ps.Nodup := by
    induction txs using List.reverseRecOn with
    | nil => intro ps hps; simp [build] at hps
    | append_singleton xs x ih =>
        intro ps hps
        rw [build_append] at hps
        unfold buildStep at hps
        rcases List.mem_append.mp hps with h | h
        · exact ih ps h
        · rw [List.mem_singleton.mp h]
          exact insertTx_snd_nodup _ _ _
  by_cases h : i < (build txs).2.length
  · have heq : predsOf txs i = (build txs).2[i] := by
      unfold predsOf
      exact List.getD_eq_getElem _ _ h
    rw [heq]
    exact hall _ (List.getElem_mem h)
  · unfold predsOf
    rw [List.getD_eq_default _ _ (Nat.le_of_not_lt h)]
    exact List.nodup_nil

theorem build_append_fst (txs : List Tx) (tx : Tx) :
    (build (txs ++ [tx])).1 = (insertTx (build txs).1 txs.length tx).1 := by
  rw [build_append]
  show (insertTx (build txs).1 (build txs).2.length tx).1 = _
  rw [build_snd_length]

theorem EdgeRel_append_mono {txs : List Tx} {tx : Tx} {p t : Nat}
    (h : EdgeRel txs p t) : EdgeRel (txs ++ [tx]) p t := by
  obtain ⟨ht, hp⟩ := h
  refine ⟨by simpa using Nat.lt_succ_of_lt ht, ?_⟩
  rw [predsOf_append_lt ht]
  exact hp

theorem path_append_mono {txs : List Tx} {tx : Tx} {i j : Nat}
    (h : Relation.ReflTransGen (EdgeRel txs) i j) :
    Relation.ReflTransGen (EdgeRel (txs ++ [tx])) i j :=
  Relation.ReflTransGen.mono (fun _ _ hh => EdgeRel_append_mono hh) h

/-- The invariants of the insertion phase, established together by
induction over the insertion sequence: the chain state points at earlier
writers/readers of each account, blocking predecessors precede their
targets, every edge is explained by an actual lock conflict, and every
earlier writer of an account has a blocking path to the account's current
last writer (and hence to every later writer). -/
structure BuildInv (txs : List Tx) : Prop where
  lwLt : ∀ a w, ((build txs).1 a).lastWriter = some w → w < txs.length
  lwWrites : ∀ a w, ((build txs).1 a).lastWriter = some w →
    a ∈ (txAt txs w).writable
  rdLt : ∀ a r, r ∈ ((build txs).1 a).readers → r < txs.length
  rdReads : ∀ a r, r ∈ ((build txs).1 a).readers → a ∈ (txAt txs r).readonly
  lwNone : ∀ a, ((build txs).1 a).lastWriter = none →
    ∀ i, i < txs.length → a ∉ (txAt txs i).writable
  predsLt : ∀ i, ∀ p ∈ predsOf txs i, p < i
  edgeKinds : ∀ p t, EdgeRel txs p t →
    ∃ a, (a ∈ (txAt txs p).writable ∧ touches (txAt txs t) a) ∨
      (a ∈ (txAt txs p).readonly ∧ a ∈ (txAt txs t).writable)
  chain : ∀ a w, ((build txs).1 a).lastWriter = some w →
    ∀ i, i < txs.length → a ∈ (txAt txs i).writable →
      Relation.ReflTransGen (EdgeRel txs) i w
  writerPath : ∀ a i j, i < j → j < txs.length →
    a ∈ (txAt txs i).writable → a ∈ (txAt txs j).writable →
      Relation.ReflTransGen (EdgeRel txs) i j

theorem buildInv {txs : List Tx} (hwf : ∀ tx ∈ txs, Wf tx) : BuildInv txs := by
  induction txs using List.reverseRecOn with
  | nil =>
      refine ⟨?_, ?_, ?_, ?_, ?_, ?_, ?_, ?_, ?_⟩
      · intro a w h
        cases h
      · intro a w h
        cases h
      · intro a r h
        cases h
      · intro a r h
        cases h
      · intro a _ i hi
        cases hi
      · intro i p hp
        have : predsOf [] i = [] := predsOf_oob (Nat.zero_le i)
        rw [this] at hp
        cases hp
      · intro p t h
        exact absurd h.1 (Nat.not_lt_zero t)
      · intro a w h
        cases h
      · intro a i j _ hj
        cases hj
  | append_singleton xs x ih =>
      have hwfxs : ∀ tx ∈ xs, Wf tx := fun tx htx => hwf tx (List.mem_append.mpr (Or.inl htx))
      have hwfx : Wf x := hwf x (List.mem_append.mpr (Or.inr (List.mem_singleton.mpr rfl)))
      have inv := ih hwfxs
      have hn : (xs ++ [x]).length = xs.length + 1 := by simp
      have hL := build_append_fst xs x
      have hPredsEq : predsOf (xs ++ [x]) xs.length =
          (insertTx (build xs).1 xs.length x).2 := by
        rw [predsOf_append_eq, txAt_append_eq]
      have hAtEq := txAt_append_eq xs x
      -- the new last writer of an account the new transaction writes,
      -- together with the blocking edge from the old last writer (if any)
      have hEdgeToNew : ∀ a, (a ∈ x.writable ∨ a ∈ x.readonly) →
          ∀ w0, (((build xs).1 a).lastWriter = some w0) →
            EdgeRel (xs ++ [x]) w0 xs.length := by
        intro a ha w0 hw0
        refine ⟨by omega, ?_⟩
        rw [hPredsEq]
        rcases ha with ha | ha
        · exact (mem_insertTx_snd hwfx).mpr (Or.inl ⟨a, ha, Or.inl hw0⟩)
        · exact (mem_insertTx_snd hwfx).mpr (Or.inr ⟨a, ha, hw0⟩)
      refine ⟨?_, ?_, ?_, ?_, ?_, ?_, ?_, ?_, ?_⟩
      · -- lwLt
        intro a w h
        rw [hL] at h
        by_cases hain : a ∈ x.writable
        · rw [insertTx_fst_write _ _ hwfx hain] at h
          cases h
          omega
        · by_cases har : a ∈ x.readonly
          · rw [insertTx_fst_read _ _ hwfx har] at h
            have := inv.lwLt a w h
            omega
          · rw [insertTx_fst_other _ _ hwfx hain har] at h
            have := inv.lwLt a w h
            omega
      · -- lwWrites
        intro a w h
        rw [hL] at h
        by_cases hain : a ∈ x.writable
        · rw [insertTx_fst_write _ _ hwfx hain] at h
          cases h
          rw [hAtEq]
          exact hain
        · by_cases har : a ∈ x.readonly
          · rw [insertTx_fst_read _ _ hwfx har] at h
            rw [txAt_append_lt (inv.lwLt a w h)]
            exact inv.lwWrites a w h
          · rw [insertTx_fst_other _ _ hwfx hain har] at h
            rw [txAt_append_lt (inv.lwLt a w h)]
            exact inv.lwWrites a w h
      · -- rdLt
        intro a r h
        rw [hL] at h
        by_cases hain : a ∈ x.writable
        · rw [insertTx_fst_write _ _ hwfx hain] at h
          cases h
        · by_cases har : a ∈ x.readonly
          · rw [insertTx_fst_read _ _ hwfx har] at h
            rcases List.mem_append.mp h with h | h
            · have := inv.rdLt a r h
              omega
            · rw [List.mem_singleton.mp h]
              omega
          · rw [insertTx_fst_other _ _ hwfx hain har] at h
            have := inv.rdLt a r h
            omega
      · -- rdReads
        intro a r h
        rw [hL] at h
        by_cases hain : a ∈ x.writable
        · rw [insertTx_fst_write _ _ hwfx hain] at h
          cases h
        · by_cases har : a ∈ x.readonly
          · rw [insertTx_fst_read _ _ hwfx har] at h
            rcases List.mem_append.mp h with h | h
            · rw [txAt_append_lt (inv.rdLt a r h)]
              exact inv.rdReads a r h
            · rw [List.mem_singleton.mp h, hAtEq]
              exact har
          · rw [insertTx_fst_other _ _ hwfx hain har] at h
            rw [txAt_append_lt (inv.rdLt a r h)]
            exact inv.rdReads a r h
      · -- lwNone
        intro a h i hi
        rw [hL] at h
        by_cases hain : a ∈ x.writable
        · rw [insertTx_fst_write _ _ hwfx hain] at h
          cases h
        · by_cases har : a ∈ x.readonly
          · rw [insertTx_fst_read _ _ hwfx har] at h
            rcases Nat.lt_succ_iff_lt_or_eq.mp (hn ▸ hi) with h2 | h2
            · rw [txAt_append_lt h2]
              exact inv.lwNone a h i h2
            · rw [h2, hAtEq]
              exact hain
          · rw [insertTx_fst_other _ _ hwfx hain har] at h
            rcases Nat.lt_succ_iff_lt_or_eq.mp (hn ▸ hi) with h2 | h2
            · rw [txAt_append_lt h2]
              exact inv.lwNone a h i h2
            · rw [h2, hAtEq]
              exact hain
      · -- predsLt
        intro i p hp
        rcases Nat.lt_trichotomy i xs.length with h2 | h2 | h2
        · rw [predsOf_append_lt h2] at hp
          exact inv.predsLt i p hp
        · rw [h2, hPredsEq] at hp
          rcases (mem_insertTx_snd hwfx).mp hp with ⟨a, _, hw | hr⟩ | ⟨a, _, hw⟩
          · rw [h2]
            exact inv.lwLt a p hw
          · rw [h2]
            exact inv.rdLt a p hr
          · rw [h2]
            exact inv.lwLt a p hw
        · rw [predsOf_oob (by omega)] at hp
          cases hp
      · -- edgeKinds
        intro p t h
        obtain ⟨ht, hp⟩ := h
        rcases Nat.lt_succ_iff_lt_or_eq.mp (hn ▸ ht) with h2 | h2
        · rw [predsOf_append_lt h2] at hp
          have hplt : p < t := inv.predsLt t p hp
          obtain ⟨a, hcase⟩ := inv.edgeKinds p t ⟨h2, hp⟩
          refine ⟨a, ?_⟩
          rw [txAt_append_lt (by omega : p < xs.length), txAt_append_lt h2]
          exact hcase
        · rw [h2, hPredsEq] at hp
          rcases (mem_insertTx_snd hwfx).mp hp with ⟨a, ha, hw | hr⟩ | ⟨a, ha, hw⟩
          · refine ⟨a, Or.inl ⟨?_, ?_⟩⟩
            · rw [txAt_append_lt (inv.lwLt a p hw)]
              exact inv.lwWrites a p hw
            · rw [h2, hAtEq]
              exact Or.inl ha
          · refine ⟨a, Or.inr ⟨?_, ?_⟩⟩
            · rw [txAt_append_lt (inv.rdLt a p hr)]
              exact inv.rdReads a p hr
            · rw [h2, hAtEq]
              exact ha
          · refine ⟨a, Or.inl ⟨?_, ?_⟩⟩
            · rw [txAt_append_lt (inv.lwLt a p hw)]
              exact inv.lwWrites a p hw
            · rw [h2, hAtEq]
              exact Or.inr ha
      · -- chain
        intro a w h i hi hiw
        rw [hL] at h
        by_cases hain : a ∈ x.writable
        · rw [insertTx_fst_write _ _ hwfx hain] at h
          cases h
          rcases Nat.lt_succ_iff_lt_or_eq.mp (hn ▸ hi) with h2 | h2
          · rw [txAt_append_lt h2] at hiw
            cases hlw : ((build xs).1 a).lastWriter with
            | none => exact absurd hiw (inv.lwNone a hlw i h2)
            | some w0 =>
                have hpath := @path_append_mono xs x _ _
                  (inv.chain a w0 hlw i h2 hiw)
                exact hpath.tail (hEdgeToNew a (Or.inl hain) w0 hlw)
          · exact h2 ▸ Relation.ReflTransGen.refl
        · have hlwSame : ((insertTx (build xs).1 xs.length x).1 a).lastWriter =
              ((build xs).1 a).lastWriter := by
            by_cases har : a ∈ x.readonly
            · rw [insertTx_fst_read _ _ hwfx har]
            · rw [insertTx_fst_other _ _ hwfx hain har]
          rw [hlwSame] at h
          rcases Nat.lt_succ_iff_lt_or_eq.mp (hn ▸ hi) with h2 | h2
          · rw [txAt_append_lt h2] at hiw
            exact path_append_mono (inv.chain a w h i h2 hiw)
          · rw [h2, hAtEq] at hiw
            exact absurd hiw hain
      · -- writerPath
        intro a i j hij hj hiw hjw
        rcases Nat.lt_succ_iff_lt_or_eq.mp (hn ▸ hj) with h2 | h2
        · rw [txAt_append_lt h2] at hjw
          rw [txAt_append_lt (by omega : i < xs.length)] at hiw
          exact path_append_mono (inv.writerPath a i j hij h2 hiw hjw)
        · rw [h2, hAtEq] at hjw
          have hi : i < xs.length := by omega
          rw [txAt_append_lt hi] at hiw
          cases hlw : ((build xs).1 a).lastWriter with
          | none => exact absurd hiw (inv.lwNone a hlw i hi)
          | some w0 =>
              have hpath := @path_append_mono xs x _ _
                (inv.chain a w0 hlw i hi hiw)
              rw [h2]
              exact hpath.tail (hEdgeToNew a (Or.inl hjw) w0 hlw)

/-! ## Drain-phase lemmas -/

theorem popAllF_perm {prio : Nat → Nat} {sel : List Nat → Option Nat}
    (hsel : SelValid prio sel) :
    ∀ (fuel : Nat) (q : List Nat), q.length ≤ fuel →
      (popAllF sel fuel q).Perm q := by
  intro fuel
  induction fuel with
  | zero =>
      intro q hq
      have hq0 : q = [] := List.eq_nil_of_length_eq_zero (Nat.le_zero.mp hq)
      subst hq0
      simp [popAllF]
  | succ f ih =>
      intro q hq
      by_cases hqe : q = []
      · subst hqe
        simp [popAllF, hsel.1]
      · obtain ⟨i, hsi, hiq, _⟩ := hsel.2 q hqe
        have hqpos : 0 < q.length := List.length_pos.mpr hqe
        have herase : (q.erase i).length ≤ f := by
          rw [List.length_erase_of_mem hiq]
          omega
        show (popAllF sel (f + 1) q).Perm q
        rw [popAllF, hsi]
        exact ((ih (q.erase i) herase).cons i).trans
          (List.perm_cons_erase hiq).symm

theorem popAll_perm {prio : Nat → Nat} {sel : List Nat → Option Nat}
    (hsel : SelValid prio sel) (q : List Nat) : (popAll sel q).Perm q :=
  popAllF_perm hsel q.length q (le_refl _)

theorem popAll_nil (sel : List Nat → Option Nat) : popAll sel [] = [] := by
  simp [popAll, popAllF]

theorem popAll_head {prio : Nat → Nat} {sel : List Nat → Option Nat}
    (hsel : SelValid prio sel) {q : List Nat} (hq : q ≠ []) :
    ∃ i rest, popAll sel q = i :: rest ∧ i ∈ q ∧ ∀ j ∈ q, prio j ≤ prio i := by
  obtain ⟨i, hsi, hiq, hmax⟩ := hsel.2 q hq
  have hqpos : 0 < q.length := List.length_pos.mpr hq
  obtain ⟨m, hm⟩ : ∃ m, q.length = m + 1 := ⟨q.length - 1, by omega⟩
  refine ⟨i, popAllF sel m (q.erase i), ?_, hiq, hmax⟩
  rw [popAll, hm, popAllF, hsi]

theorem relax_eq_of_ready (p : Nat) (st : DrainSt) (t : Nat)
    (h : st.blocked t - 1 = 0) :
    relax p st t =
      { st with
          blocked := fun x => if x = t then st.blocked t - 1 else st.blocked x
          queue := st.queue ++ [t]
          edges := st.edges ++ [(p, t)] } := by
  unfold relax
  simp [h]

theorem relax_eq_of_blocked (p : Nat) (st : DrainSt) (t : Nat)
    (h : ¬st.blocked t - 1 = 0) :
    relax p st t =
      { st with
          blocked := fun x => if x = t then st.blocked t - 1 else st.blocked x } := by
  unfold relax
  simp [h]

theorem relaxFold_spec (p : Nat) :
    ∀ (ts : List Nat), ts.Nodup → ∀ (st : DrainSt),
      (ts.foldl (relax p) st).nodes = st.nodes ∧
      (ts.foldl (relax p) st).layers = st.layers ∧
      (∀ x, (ts.foldl (relax p) st).blocked x =
        if x ∈ ts then st.blocked x - 1 else st.blocked x) ∧
      (ts.foldl (relax p) st).queue =
        st.queue ++ ts.filter (fun t => st.blocked t - 1 == 0) ∧
      (ts.foldl (relax p) st).edges =
        st.edges ++ (ts.filter (fun t => st.blocked t - 1 == 0)).map
          (fun t => (p, t)) := by
  intro ts
  induction ts with
  | nil => intro _ st; simp
  | cons t rest ih =>
      intro hnd st
      obtain ⟨htr, hndrest⟩ := List.nodup_cons.mp hnd
      have hblocked1 : ∀ x, (relax p st t).blocked x =
          if x = t then st.blocked t - 1 else st.blocked x := by
        intro x
        by_cases hb : st.blocked t - 1 = 0
        · rw [relax_eq_of_ready p st t hb]
        · rw [relax_eq_of_blocked p st t hb]
      have hsame : ∀ x ∈ rest, (relax p st t).blocked x = st.blocked x := by
        intro x hx
        rw [hblocked1 x, if_neg]
        intro hxt
        exact htr (hxt ▸ hx)
      obtain ⟨ihn, ihl, ihb, ihq, ihe⟩ := ih hndrest (relax p st t)
      have hfiltrest : rest.filter (fun u => (relax p st t).blocked u - 1 == 0) =
          rest.filter (fun u => st.blocked u - 1 == 0) := by
        apply List.filter_congr
        intro u hu
        rw [hsame u hu]
      have hnodes1 : (relax p st t).nodes = st.nodes := by
        by_cases hb : st.blocked t - 1 = 0
        · rw [relax_eq_of_ready p st t hb]
        · rw [relax_eq_of_blocked p st t hb]
      have hlayers1 : (relax p st t).layers = st.layers := by
        by_cases hb : st.blocked t - 1 = 0
        · rw [relax_eq_of_ready p st t hb]
        · rw [relax_eq_of_blocked p st t hb]
      refine ⟨?_, ?_, ?_, ?_, ?_⟩
      · rw [List.foldl_cons, ihn, hnodes1]
      · rw [List.foldl_cons, ihl, hlayers1]
      · intro x
        rw [List.foldl_cons, ihb x]
        by_cases hx : x ∈ rest
        · rw [if_pos hx, if_pos (List.mem_cons.mpr (Or.inr hx)), hsame x hx]
        · rw [if_neg hx, hblocked1 x]
          by_cases hxt : x = t
          · rw [if_pos hxt, if_pos (List.mem_cons.mpr (Or.inl hxt)), hxt]
          · rw [if_neg hxt, if_neg (by simp [hxt, hx])]
      · rw [List.foldl_cons, ihq, hfiltrest]
        by_cases hb : st.blocked t - 1 = 0
        · rw [relax_eq_of_ready p st t hb]
          rw [List.filter_cons_of_pos (by simp [hb])]
          simp
        · rw [relax_eq_of_blocked p st t hb]
          rw [List.filter_cons_of_neg (by simp [hb])]
      · rw [List.foldl_cons, ihe, hfiltrest]
        by_cases hb : st.blocked t - 1 = 0
        · rw [relax_eq_of_ready p st t hb]
          rw [List.filter_cons_of_pos (by simp [hb])]
          simp
        · rw [relax_eq_of_blocked p st t hb]
          rw [List.filter_cons_of_neg (by simp [hb])]

theorem eq_singleton_of_nodup_mem {l : List Nat} {p : Nat} (hnd : l.Nodup)
    (hp : p ∈ l) (hall : ∀ x ∈ l, x = p) : l = [p] := by
  cases l with
  | nil => cases hp
  | cons x rest =>
      have hx : x = p := hall x (List.mem_cons_self x rest)
      subst hx
      have hrest : rest = [] := by
        cases rest with
        | nil => rfl
        | cons y rest2 =>
            have hy : y = x := hall y (List.mem_cons.mpr (Or.inr (List.mem_cons_self y rest2)))
            exact absurd (hy ▸ List.mem_cons_self y rest2)
              (List.nodup_cons.mp hnd).1
      rw [hrest]

theorem filter_notMem_append_singleton (l resolved : List Nat) (pp : Nat) :
    l.filter (fun p => decide (p ∉ resolved ++ [pp])) =
      (l.filter (fun p => decide (p ∉ resolved))).filter
        (fun p => decide (p ≠ pp)) := by
  rw [List.filter_filter]
  apply List.filter_congr
  intro p _
  simp only [List.mem_append, List.mem_singleton, not_or]
  by_cases h1 : p ∈ resolved <;> by_cases h2 : p = pp <;> simp [h1, h2]

theorem length_filter_ne_of_mem {l : List Nat} (hnd : l.Nodup) {x : Nat}
    (hx : x ∈ l) :
    (l.filter (fun p => decide (p ≠ x))).length = l.length - 1 := by
  have herase : l.erase x = l.filter (fun p => decide (p ≠ x)) := by
    rw [List.Nodup.erase_eq_filter hnd x]
    apply List.filter_congr
    intro p _
    by_cases hpx : p = x <;> simp [hpx]
  rw [← herase, List.length_erase_of_mem hx]

theorem filter_ne_of_not_mem {l : List Nat} {x : Nat} (hx : x ∉ l) :
    l.filter (fun p => decide (p ≠ x)) = l := by
  apply List.filter_eq_self.mpr
  intro p hp
  simp only [decide_eq_true_eq]
  intro hpx
  exact hx (hpx ▸ hp)

theorem succsOf_nodup (txs : List Tx) (p : Nat) : (succsOf txs p).Nodup :=
  List.Nodup.filter _ (List.nodup_range _)

theorem mem_succsOf {txs : List Tx} {p t : Nat} :
    t ∈ succsOf txs p ↔ t < txs.length ∧ p ∈ predsOf txs t := by
  simp [succsOf, List.mem_filter, List.mem_range]

/-- The drain-loop invariant, stated relative to the list `resolved` of
nodes whose `unblock` has completed (at layer boundaries `resolved` is
exactly the popped-node list; inside the unblock phase of a layer it
additionally lacks the tail of the layer). -/
structure GenInv (txs : List Tx) (resolved : List Nat) (st : DrainSt) : Prop where
  nodesNodup : st.nodes.Nodup
  nodesLt : ∀ i ∈ st.nodes, i < txs.length
  queueNodup : st.queue.Nodup
  queueLt : ∀ i ∈ st.queue, i < txs.length
  queueNotPopped : ∀ i ∈ st.queue, i ∉ st.nodes
  resolvedSub : ∀ i ∈ resolved, i ∈ st.nodes
  blockedEq : ∀ t, t < txs.length →
    st.blocked t =
      ((predsOf txs t).filter (fun p => decide (p ∉ resolved))).length
  queueIff : ∀ t, t < txs.length →
    (t ∈ st.queue ↔ t ∉ st.nodes ∧ ∀ p ∈ predsOf txs t, p ∈ resolved)
  nodesReady : ∀ t ∈ st.nodes, ∀ p ∈ predsOf txs t, p ∈ resolved
  edgesPred : ∀ e ∈ st.edges, e.2 < txs.length ∧ e.1 ∈ predsOf txs e.2
  edgesSrcResolved : ∀ e ∈ st.edges, e.1 ∈ resolved
  edgesTarget : ∀ e ∈ st.edges, e.2 ∈ st.queue ∨ e.2 ∈ st.nodes
  edgesIdx : ∀ e ∈ st.edges, e.2 ∈ st.nodes →
    st.nodes.indexOf e.1 < st.nodes.indexOf e.2
  edgesCount : ∀ t, t < txs.length →
    st.edges.countP (fun e => decide (e.2 = t)) =
      if predsOf txs t = [] then 0
      else if ∀ p ∈ predsOf txs t, p ∈ resolved then 1 else 0
  predsOrder : ∀ t ∈ st.nodes, ∀ p ∈ predsOf txs t,
    p ∈ st.nodes ∧ st.nodes.indexOf p < st.nodes.indexOf t

theorem unblock_step {txs : List Tx} {resolved : List Nat} {st : DrainSt}
    (p : Nat) (h : GenInv txs resolved st)
    (hpn : p ∈ st.nodes) (hpr : p ∉ resolved) :
    GenInv txs (resolved ++ [p]) (unblockNode txs st p) := by
  unfold unblockNode
  obtain ⟨hspecN, hspecL, hspecB, hspecQ, hspecE⟩ :=
    relaxFold_spec p (succsOf txs p) (succsOf_nodup txs p) st
  set newly := (succsOf txs p).filter (fun t => st.blocked t - 1 == 0) with hnewly_def
  have hmem_filter_iff : ∀ t q : Nat,
      q ∈ (predsOf txs t).filter (fun u => decide (u ∉ resolved)) ↔
        (q ∈ predsOf txs t ∧ q ∉ resolved) := by
    intro t q
    simp [List.mem_filter]
  have hblocked0 : ∀ t, t < txs.length →
      (∀ q ∈ predsOf txs t, q ∈ resolved) → st.blocked t = 0 := by
    intro t ht hall
    rw [h.blockedEq t ht, List.length_eq_zero, List.filter_eq_nil]
    intro q hq
    simp only [decide_eq_true_eq, Decidable.not_not]
    exact hall q hq
  have hblocked1_of : ∀ t, t < txs.length → p ∈ predsOf txs t →
      (st.blocked t = 1 ↔ ∀ q ∈ predsOf txs t, q ∈ resolved ++ [p]) := by
    intro t ht hp
    constructor
    · intro h1 q hq
      by_cases hqr : q ∈ resolved
      · exact List.mem_append.mpr (Or.inl hqr)
      · rw [h.blockedEq t ht] at h1
        obtain ⟨x, hx⟩ := List.length_eq_one.mp h1
        have hqf := (hmem_filter_iff t q).mpr ⟨hq, hqr⟩
        have hpf := (hmem_filter_iff t p).mpr ⟨hp, hpr⟩
        rw [hx] at hqf hpf
        have hq1 : q = x := List.mem_singleton.mp hqf
        have hp1 : p = x := List.mem_singleton.mp hpf
        rw [hq1, ← hp1]
        exact List.mem_append.mpr (Or.inr (List.mem_singleton.mpr rfl))
    · intro hall
      rw [h.blockedEq t ht]
      have hone : (predsOf txs t).filter (fun u => decide (u ∉ resolved)) = [p] := by
        apply eq_singleton_of_nodup_mem
        · exact List.Nodup.filter _ (predsOf_nodup txs t)
        · exact (hmem_filter_iff t p).mpr ⟨hp, hpr⟩
        · intro x hxf
          obtain ⟨hx1, hx2⟩ := (hmem_filter_iff t x).mp hxf
          rcases List.mem_append.mp (hall x hx1) with hr | hs
          · exact absurd hr hx2
          · exact List.mem_singleton.mp hs
      rw [hone]
      rfl
  have hnewly_iff : ∀ t, t ∈ newly ↔
      (t < txs.length ∧ p ∈ predsOf txs t ∧ st.blocked t = 1) := by
    intro t
    rw [hnewly_def, List.mem_filter, mem_succsOf]
    constructor
    · rintro ⟨⟨ht, hp⟩, hb⟩
      have hb' : st.blocked t - 1 = 0 := by simpa using hb
      have hge : 0 < st.blocked t := by
        rw [h.blockedEq t ht]
        exact List.length_pos.mpr
          (List.ne_nil_of_mem ((hmem_filter_iff t p).mpr ⟨hp, hpr⟩))
      exact ⟨ht, hp, by omega⟩
    · rintro ⟨ht, hp, h1⟩
      exact ⟨⟨ht, hp⟩, by simp [h1]⟩
  have hnewly_not_nodes : ∀ t ∈ newly, t ∉ st.nodes := by
    intro t htn hmem
    obtain ⟨ht, hp2, h1⟩ := (hnewly_iff t).mp htn
    have := hblocked0 t ht (h.nodesReady t hmem)
    omega
  have hnewly_resolved : ∀ t ∈ newly, ∀ q ∈ predsOf txs t,
      q ∈ resolved ++ [p] := by
    intro t htn
    obtain ⟨ht, hp2, h1⟩ := (hnewly_iff t).mp htn
    exact (hblocked1_of t ht hp2).mp h1
  have hnewly_lt : ∀ t ∈ newly, t < txs.length :=
    fun t htn => ((hnewly_iff t).mp htn).1
  have hnewly_nodup : newly.Nodup := List.Nodup.filter _ (succsOf_nodup txs p)
  have hnewly_not_queue : ∀ t ∈ newly, t ∉ st.queue := by
    intro t htn htq
    have ht := hnewly_lt t htn
    have h0 := hblocked0 t ht ((h.queueIff t ht).mp htq).2
    obtain ⟨_, _, h1⟩ := (hnewly_iff t).mp htn
    omega
  refine ⟨?_, ?_, ?_, ?_, ?_, ?_, ?_, ?_, ?_, ?_, ?_, ?_, ?_, ?_, ?_⟩
  · rw [hspecN]
    exact h.nodesNodup
  · rw [hspecN]
    exact h.nodesLt
  · rw [hspecQ]
    exact List.Nodup.append h.queueNodup hnewly_nodup
      (fun t htq htn => hnewly_not_queue t htn htq)
  · rw [hspecQ]
    intro i hi
    rcases List.mem_append.mp hi with hi | hi
    · exact h.queueLt i hi
    · exact hnewly_lt i hi
  · rw [hspecQ, hspecN]
    intro i hi
    rcases List.mem_append.mp hi with hi | hi
    · exact h.queueNotPopped i hi
    · exact hnewly_not_nodes i hi
  · rw [hspecN]
    intro i hi
    rcases List.mem_append.mp hi with hi | hi
    · exact h.resolvedSub i hi
    · exact (List.mem_singleton.mp hi) ▸ hpn
  · -- blockedEq
    intro t ht
    rw [hspecB t, filter_notMem_append_singleton]
    by_cases hp2 : p ∈ predsOf txs t
    · have htm : t ∈ succsOf txs p := mem_succsOf.mpr ⟨ht, hp2⟩
      rw [if_pos htm, h.blockedEq t ht,
        length_filter_ne_of_mem (List.Nodup.filter _ (predsOf_nodup txs t))
          ((hmem_filter_iff t p).mpr ⟨hp2, hpr⟩)]
    · have htm : t ∉ succsOf txs p := fun hc => hp2 (mem_succsOf.mp hc).2
      rw [if_neg htm, h.blockedEq t ht,
        filter_ne_of_not_mem (fun hc => hp2 ((hmem_filter_iff t p).mp hc).1)]
  · -- queueIff
    intro t ht
    rw [hspecQ, hspecN, List.mem_append]
    constructor
    · rintro (hq | hq)
      · obtain ⟨h1, h2⟩ := (h.queueIff t ht).mp hq
        exact ⟨h1, fun q hq2 => List.mem_append.mpr (Or.inl (h2 q hq2))⟩
      · exact ⟨hnewly_not_nodes t hq, hnewly_resolved t hq⟩
    · rintro ⟨h1, h2⟩
      by_cases hall : ∀ q ∈ predsOf txs t, q ∈ resolved
      · exact Or.inl ((h.queueIff t ht).mpr ⟨h1, hall⟩)
      · refine Or.inr ?_
        push_neg at hall
        obtain ⟨q0, hq0, hq0r⟩ := hall
        have hq0p : q0 = p := by
          rcases List.mem_append.mp (h2 q0 hq0) with hr | hs
          · exact absurd hr hq0r
          · exact List.mem_singleton.mp hs
        subst hq0p
        exact (hnewly_iff t).mpr ⟨ht, hq0, (hblocked1_of t ht hq0).mpr h2⟩
  · -- nodesReady
    intro t htm q hq
    rw [hspecN] at htm
    exact List.mem_append.mpr (Or.inl (h.nodesReady t htm q hq))
  · -- edgesPred
    intro e he
    rw [hspecE] at he
    rcases List.mem_append.mp he with he | he
    · exact h.edgesPred e he
    · obtain ⟨t, htn, rfl⟩ := List.mem_map.mp he
      obtain ⟨ht, hp2, _⟩ := (hnewly_iff t).mp htn
      exact ⟨ht, hp2⟩
  · -- edgesSrcResolved
    intro e he
    rw [hspecE] at he
    rcases List.mem_append.mp he with he | he
    · exact List.mem_append.mpr (Or.inl (h.edgesSrcResolved e he))
    · obtain ⟨t, htn, rfl⟩ := List.mem_map.mp he
      exact List.mem_append.mpr (Or.inr (List.mem_singleton.mpr rfl))
  · -- edgesTarget
    intro e he
    rw [hspecE] at he
    rw [hspecQ, hspecN]
    rcases List.mem_append.mp he with he | he
    · rcases h.edgesTarget e he with h1 | h1
      · exact Or.inl (List.mem_append.mpr (Or.inl h1))
      · exact Or.inr h1
    · obtain ⟨t, htn, rfl⟩ := List.mem_map.mp he
      exact Or.inl (List.mem_append.mpr (Or.inr htn))
  · -- edgesIdx
    intro e he hein
    rw [hspecE] at he
    rw [hspecN] at hein ⊢
    rcases List.mem_append.mp he with he | he
    · exact h.edgesIdx e he hein
    · obtain ⟨t, htn, rfl⟩ := List.mem_map.mp he
      exact absurd hein (hnewly_not_nodes t htn)
  · -- edgesCount
    intro t ht
    rw [hspecE, List.countP_append]
    have hmapcount :
        (newly.map (fun u => (p, u))).countP (fun e => decide (e.2 = t)) =
          if t ∈ newly then 1 else 0 := by
      rw [List.countP_map, List.countP_eq_length_filter]
      by_cases htm : t ∈ newly
      · rw [if_pos htm]
        have hsing : newly.filter
            ((fun e => decide (e.2 = t)) ∘ (fun u => (p, u))) = [t] := by
          apply eq_singleton_of_nodup_mem (List.Nodup.filter _ hnewly_nodup)
          · exact List.mem_filter.mpr ⟨htm, by simp⟩
          · intro x hx
            simpa using (List.mem_filter.mp hx).2
        rw [hsing]
        rfl
      · rw [if_neg htm, List.length_eq_zero, List.filter_eq_nil]
        intro u hu
        simp only [Function.comp_apply, decide_eq_true_eq]
        intro hut
        exact htm (hut ▸ hu)
    by_cases hnil : predsOf txs t = []
    · rw [if_pos hnil]
      have hold := h.edgesCount t ht
      rw [if_pos hnil] at hold
      have hnot : t ∉ newly := by
        intro hc
        obtain ⟨_, hp2, _⟩ := (hnewly_iff t).mp hc
        rw [hnil] at hp2
        cases hp2
      rw [hold, hmapcount, if_neg hnot]
    · rw [if_neg hnil]
      have hold := h.edgesCount t ht
      rw [if_neg hnil] at hold
      by_cases hres : ∀ q ∈ predsOf txs t, q ∈ resolved
      · have h0 := hblocked0 t ht hres
        have hnot : t ∉ newly := by
          intro hc
          obtain ⟨_, _, h1⟩ := (hnewly_iff t).mp hc
          omega
        rw [if_pos hres] at hold
        rw [hold, hmapcount, if_neg hnot,
          if_pos (fun q hq => List.mem_append.mpr (Or.inl (hres q hq)))]
      · rw [if_neg hres] at hold
        by_cases hres2 : ∀ q ∈ predsOf txs t, q ∈ resolved ++ [p]
        · push_neg at hres
          obtain ⟨q0, hq0, hq0r⟩ := hres
          have hq0p : q0 = p := by
            rcases List.mem_append.mp (hres2 q0 hq0) with hr | hs
            · exact absurd hr hq0r
            · exact List.mem_singleton.mp hs
          subst hq0p
          have htm : t ∈ newly :=
            (hnewly_iff t).mpr ⟨ht, hq0, (hblocked1_of t ht hq0).mpr hres2⟩
          rw [hold, hmapcount, if_pos htm, if_pos hres2]
        · have hnot : t ∉ newly := fun hc => hres2 (hnewly_resolved t hc)
          rw [hold, hmapcount, if_neg hnot, if_neg hres2]
  · -- predsOrder
    intro t htm q hq
    rw [hspecN] at htm ⊢
    exact h.predsOrder t htm q hq

theorem unblockNode_nodes (txs : List Tx) (st : DrainSt) (p : Nat) :
    (unblockNode txs st p).nodes = st.nodes := by
  unfold unblockNode
  exact (relaxFold_spec p (succsOf txs p) (succsOf_nodup txs p) st).1

theorem unblockFold_nodes (txs : List Tx) :
    ∀ (ρ : List Nat) (st : DrainSt),
      (ρ.foldl (unblockNode txs) st).nodes = st.nodes := by
  intro ρ
  induction ρ with
  | nil => intro st; rfl
  | cons p rest ih =>
      intro st
      rw [List.foldl_cons, ih, unblockNode_nodes]

theorem unblockFold_inv {txs : List Tx} {nodes0 layer : List Nat}
    (hlnd : layer.Nodup) (hldis : ∀ t ∈ layer, t ∉ nodes0) :
    ∀ (ρ π : List Nat) (st : DrainSt), layer = π ++ ρ →
      st.nodes = nodes0 ++ layer →
      GenInv txs (nodes0 ++ π) st →
      GenInv txs (nodes0 ++ layer) (ρ.foldl (unblockNode txs) st) := by
  intro ρ
  induction ρ with
  | nil =>
      intro π st hle hnodes h
      rw [List.foldl_nil]
      rw [List.append_nil] at hle
      rw [hle]
      exact h
  | cons p rest ih =>
      intro π st hle hnodes h
      rw [List.foldl_cons]
      have hpin : p ∈ layer := by
        rw [hle]
        exact List.mem_append.mpr (Or.inr (List.mem_cons_self p rest))
      have hpnodes : p ∈ st.nodes := by
        rw [hnodes]
        exact List.mem_append.mpr (Or.inr hpin)
      have hpr : p ∉ nodes0 ++ π := by
        intro hc
        rcases List.mem_append.mp hc with hc | hc
        · exact hldis p hpin hc
        · have hnd2 := hle ▸ hlnd
          obtain ⟨_, _, hdisj⟩ := List.nodup_append.mp hnd2
          exact hdisj hc (List.mem_cons_self p rest)
      have hstep := unblock_step p h hpnodes hpr
      rw [List.append_assoc] at hstep
      refine ih (π ++ [p]) (unblockNode txs st p) ?_ ?_ hstep
      · rw [hle]
        simp
      · rw [unblockNode_nodes, hnodes]

theorem layerStep_inv {txs : List Tx} {prio : Nat → Nat}
    {sel : List Nat → Option Nat} (hsel : SelValid prio sel)
    {st : DrainSt} (h : GenInv txs st.nodes st) :
    GenInv txs (layerStep txs sel st).nodes (layerStep txs sel st) ∧
      (layerStep txs sel st).nodes = st.nodes ++ popAll sel st.queue := by
  have hperm := popAll_perm hsel st.queue
  set layer := popAll sel st.queue with hlayer_def
  have hlnd : layer.Nodup := hperm.nodup_iff.mpr h.queueNodup
  have hlq : ∀ t, t ∈ layer ↔ t ∈ st.queue := fun t => hperm.mem_iff
  have hldis : ∀ t ∈ layer, t ∉ st.nodes :=
    fun t ht => h.queueNotPopped t ((hlq t).mp ht)
  have hllt : ∀ t ∈ layer, t < txs.length :=
    fun t ht => h.queueLt t ((hlq t).mp ht)
  have hlready : ∀ t ∈ layer, ∀ q ∈ predsOf txs t, q ∈ st.nodes :=
    fun t ht => ((h.queueIff t (hllt t ht)).mp ((hlq t).mp ht)).2
  have hnodesNodup : (st.nodes ++ layer).Nodup :=
    List.Nodup.append h.nodesNodup hlnd (fun t htn htl => hldis t htl htn)
  have hidxNodes : ∀ x ∈ st.nodes,
      (st.nodes ++ layer).indexOf x = st.nodes.indexOf x :=
    fun x hx => List.indexOf_append_of_mem hx
  have hidxLayer : ∀ x ∈ layer,
      st.nodes.length ≤ (st.nodes ++ layer).indexOf x := by
    intro x hx
    rw [List.indexOf_append_of_not_mem (hldis x hx)]
    omega
  have hidxLt : ∀ x ∈ st.nodes,
      (st.nodes ++ layer).indexOf x < st.nodes.length := by
    intro x hx
    rw [hidxNodes x hx]
    exact List.indexOf_lt_length.mpr hx
  have hst1 : GenInv txs st.nodes
      { st with
          queue := []
          nodes := st.nodes ++ layer
          layers := st.layers ++ [layer] } := by
    refine ⟨hnodesNodup, ?_, List.nodup_nil, ?_, ?_, ?_, ?_, ?_, ?_, ?_, ?_, ?_, ?_, ?_, ?_⟩
    · intro i hi
      rcases List.mem_append.mp hi with hi | hi
      · exact h.nodesLt i hi
      · exact hllt i hi
    · intro i hi
      cases hi
    · intro i hi
      cases hi
    · intro i hi
      exact List.mem_append.mpr (Or.inl hi)
    · intro t ht
      exact h.blockedEq t ht
    · intro t ht
      constructor
      · intro hc
        cases hc
      · rintro ⟨h1, h2⟩
        have h1n : t ∉ st.nodes := fun hc => h1 (List.mem_append.mpr (Or.inl hc))
        have : t ∈ st.queue := (h.queueIff t ht).mpr ⟨h1n, h2⟩
        exact absurd (List.mem_append.mpr (Or.inr ((hlq t).mpr this))) h1
    · intro t htm q hq
      rcases List.mem_append.mp htm with htm | htm
      · exact h.nodesReady t htm q hq
      · exact hlready t htm q hq
    · exact h.edgesPred
    · exact h.edgesSrcResolved
    · intro e he
      rcases h.edgesTarget e he with h1 | h1
      · exact Or.inr (List.mem_append.mpr (Or.inr ((hlq e.2).mpr h1)))
      · exact Or.inr (List.mem_append.mpr (Or.inl h1))
    · intro e he hein
      have he1 : e.1 ∈ st.nodes := h.resolvedSub e.1 (h.edgesSrcResolved e he)
      rcases List.mem_append.mp hein with h2 | h2
      · rw [hidxNodes e.1 he1, hidxNodes e.2 h2]
        exact h.edgesIdx e he h2
      · exact lt_of_lt_of_le (hidxLt e.1 he1) (hidxLayer e.2 h2)
    · exact h.edgesCount
    · intro t htm q hq
      rcases List.mem_append.mp htm with h2 | h2
      · obtain ⟨hq1, hq2⟩ := h.predsOrder t h2 q hq
        refine ⟨List.mem_append.mpr (Or.inl hq1), ?_⟩
        rw [hidxNodes q hq1, hidxNodes t h2]
        exact hq2
      · have hq1 : q ∈ st.nodes := hlready t h2 q hq
        refine ⟨List.mem_append.mpr (Or.inl hq1), ?_⟩
        exact lt_of_lt_of_le (hidxLt q hq1) (hidxLayer t h2)
  have hfold := @unblockFold_inv txs st.nodes layer hlnd hldis layer [] _ (by simp)
    rfl (by simpa using hst1)
  have hstepEq : layerStep txs sel st =
      layer.foldl (unblockNode txs)
        { st with
            queue := []
            nodes := st.nodes ++ layer
            layers := st.layers ++ [layer] } := rfl
  have hnodesEq : (layerStep txs sel st).nodes = st.nodes ++ layer := by
    rw [hstepEq, unblockFold_nodes]
  refine ⟨?_, hnodesEq⟩
  rw [hstepEq] at hnodesEq ⊢
  rw [hnodesEq]
  exact hfold

theorem genInv_init (txs : List Tx) : GenInv txs [] (initSt txs) := by
  refine ⟨List.nodup_nil, ?_, ?_, ?_, ?_, ?_, ?_, ?_, ?_, ?_, ?_, ?_, ?_, ?_, ?_⟩
  · intro i hi
    cases hi
  · exact List.Nodup.filter _ (List.nodup_range _)
  · intro i hi
    exact List.mem_range.mp (List.mem_filter.mp hi).1
  · intro i _ hc
    cases hc
  · intro i hi
    cases hi
  · intro t _
    show (predsOf txs t).length = _
    congr 1
    symm
    apply List.filter_eq_self.mpr
    intro p _
    simp
  · intro t ht
    show t ∈ (List.range txs.length).filter _ ↔ _
    rw [List.mem_filter, List.mem_range]
    constructor
    · intro h2
      have hnil : predsOf txs t = [] := by simpa using h2.2
      constructor
      · intro hc
        cases hc
      · intro p hp
        rw [hnil] at hp
        cases hp
    · rintro ⟨_, hall⟩
      refine ⟨ht, ?_⟩
      simp only [decide_eq_true_eq]
      exact List.eq_nil_iff_forall_not_mem.mpr (fun p hp => by cases hall p hp)
  · intro t htm
    cases htm
  · intro e he
    cases he
  · intro e he
    cases he
  · intro e he
    cases he
  · intro e he
    cases he
  · intro t _
    show (0 : Nat) = _
    by_cases hnil : predsOf txs t = []
    · rw [if_pos hnil]
    · rw [if_neg hnil, if_neg]
      intro hall
      obtain ⟨p, hp⟩ := List.exists_mem_of_ne_nil _ hnil
      cases hall p hp
  · intro t htm
    cases htm

theorem nodes_length_le {txs : List Tx} {resolved : List Nat} {st : DrainSt}
    (h : GenInv txs resolved st) : st.nodes.length ≤ txs.length := by
  have hsub : st.nodes ⊆ List.range txs.length :=
    fun i hi => List.mem_range.mpr (h.nodesLt i hi)
  have hle := (h.nodesNodup.subperm hsub).length_le
  simpa using hle

theorem boundary_progress {txs : List Tx} (hwf : ∀ tx ∈ txs, Wf tx)
    {st : DrainSt} (h : GenInv txs st.nodes st)
    (hlen : st.nodes.length < txs.length) : st.queue ≠ [] := by
  set S := (List.range txs.length).filter (fun t => decide (t ∉ st.nodes))
    with hS_def
  have hSmem : ∀ t, t ∈ S ↔ (t < txs.length ∧ t ∉ st.nodes) := by
    intro t
    rw [hS_def, List.mem_filter, List.mem_range]
    simp
  have hSne : S ≠ [] := by
    intro hc
    have hall : ∀ t, t < txs.length → t ∈ st.nodes := by
      intro t ht
      by_contra hnt
      have : t ∈ S := (hSmem t).mpr ⟨ht, hnt⟩
      rw [hc] at this
      cases this
    have hsub : List.range txs.length ⊆ st.nodes :=
      fun t ht => hall t (List.mem_range.mp ht)
    have := ((List.nodup_range txs.length).subperm hsub).length_le
    rw [List.length_range] at this
    omega
  obtain ⟨t, rest, hSeq⟩ := List.exists_cons_of_ne_nil hSne
  have hSsorted : S.Pairwise (· < ·) :=
    List.Pairwise.filter _ (List.pairwise_lt_range _)
  have htS : t ∈ S := hSeq ▸ List.mem_cons_self t rest
  obtain ⟨ht, htn⟩ := (hSmem t).mp htS
  have hmin : ∀ s ∈ S, t ≤ s := by
    intro s hs
    rw [hSeq] at hs
    rcases List.mem_cons.mp hs with hs | hs
    · omega
    · rw [hSeq] at hSsorted
      have := (List.pairwise_cons.mp hSsorted).1 s hs
      omega
  have hpreds : ∀ p ∈ predsOf txs t, p ∈ st.nodes := by
    intro p hp
    have hpt : p < t := (buildInv hwf).predsLt t p hp
    by_contra hpn
    have hpS : p ∈ S := (hSmem p).mpr ⟨by omega, hpn⟩
    have := hmin p hpS
    omega
  have : t ∈ st.queue := (h.queueIff t ht).mpr ⟨htn, hpreds⟩
  exact List.ne_nil_of_mem this

theorem drainF_complete {txs : List Tx} {prio : Nat → Nat}
    {sel : List Nat → Option Nat} (hwf : ∀ tx ∈ txs, Wf tx)
    (hsel : SelValid prio sel) :
    ∀ (fuel : Nat) (st : DrainSt), GenInv txs st.nodes st →
      txs.length ≤ st.nodes.length + fuel →
      GenInv txs (drainF txs sel fuel st).nodes (drainF txs sel fuel st) ∧
        (drainF txs sel fuel st).nodes.length = txs.length := by
  intro fuel
  induction fuel with
  | zero =>
      intro st h hle
      have hub := nodes_length_le h
      show GenInv txs st.nodes st ∧ st.nodes.length = txs.length
      exact ⟨h, by omega⟩
  | succ f ih =>
      intro st h hle
      rw [drainF]
      by_cases hdone : st.nodes.length = txs.length
      · rw [if_pos hdone]
        exact ⟨h, hdone⟩
      · rw [if_neg hdone]
        have hub := nodes_length_le h
        have hlt : st.nodes.length < txs.length := by omega
        have hq := boundary_progress hwf h hlt
        obtain ⟨hinv2, heq⟩ := layerStep_inv hsel h
        have hlay : (popAll sel st.queue).length = st.queue.length :=
          (popAll_perm hsel st.queue).length_eq
        have hqpos : 0 < st.queue.length := List.length_pos.mpr hq
        refine ih _ hinv2 ?_
        rw [heq, List.length_append]
        omega

theorem drain_inv {txs : List Tx} {prio : Nat → Nat}
    {sel : List Nat → Option Nat} (hwf : ∀ tx ∈ txs, Wf tx)
    (hsel : SelValid prio sel) :
    GenInv txs (drain txs sel).nodes (drain txs sel) ∧
      (drain txs sel).nodes.length = txs.length := by
  apply drainF_complete hwf hsel txs.length (initSt txs)
  · exact genInv_init txs
  · simp [initSt]

theorem drain_nodes_perm {txs : List Tx} {prio : Nat → Nat}
    {sel : List Nat → Option Nat} (hwf : ∀ tx ∈ txs, Wf tx)
    (hsel : SelValid prio sel) :
    (drain txs sel).nodes.Perm (List.range txs.length) := by
  obtain ⟨h, hlen⟩ := drain_inv hwf hsel
  have hsub : (drain txs sel).nodes ⊆ List.range txs.length :=
    fun i hi => List.mem_range.mpr (h.nodesLt i hi)
  obtain ⟨l2, hperm, hsl⟩ := h.nodesNodup.subperm hsub
  have hlen2 : l2.length = (List.range txs.length).length := by
    rw [hperm.length_eq, hlen, List.length_range]
  rw [← hsl.eq_of_length hlen2]
  exact hperm.symm

theorem drain_queue_nil {txs : List Tx} {prio : Nat → Nat}
    {sel : List Nat → Option Nat} (hwf : ∀ tx ∈ txs, Wf tx)
    (hsel : SelValid prio sel) : (drain txs sel).queue = [] := by
  obtain ⟨h, _⟩ := drain_inv hwf hsel
  apply List.eq_nil_iff_forall_not_mem.mpr
  intro t htq
  have ht := h.queueLt t htq
  have htn : t ∈ (drain txs sel).nodes := by
    have := drain_nodes_perm hwf hsel
    exact this.mem_iff.mpr (List.mem_range.mpr ht)
  exact h.queueNotPopped t htq htn

theorem selFirst_go (prio : Nat → Nat) :
    ∀ (q : List Nat) (j : Nat),
      ∃ i, q.foldl
          (fun acc x =>
            match acc with
            | none => some x
            | some y => if prio y < prio x then some x else acc)
          (some j) = some i ∧
        (i = j ∨ i ∈ q) ∧ prio j ≤ prio i ∧ ∀ k ∈ q, prio k ≤ prio i := by
  intro q
  induction q with
  | nil =>
      intro j
      exact ⟨j, rfl, Or.inl rfl, le_refl _, fun k hk => absurd hk (List.not_mem_nil k)⟩
  | cons x rest ih =>
      intro j
      by_cases hcmp : prio j < prio x
      · obtain ⟨i, hfold, hmem, hle, hall⟩ := ih x
        refine ⟨i, ?_, ?_, ?_, ?_⟩
        · rw [List.foldl_cons]
          simpa [hcmp] using hfold
        · rcases hmem with h1 | h1
          · exact Or.inr (h1 ▸ List.mem_cons_self x rest)
          · exact Or.inr (List.mem_cons.mpr (Or.inr h1))
        · omega
        · intro k hk
          rcases List.mem_cons.mp hk with h1 | h1
          · rw [h1]
            exact hle
          · exact hall k h1
      · obtain ⟨i, hfold, hmem, hle, hall⟩ := ih j
        refine ⟨i, ?_, ?_, ?_, ?_⟩
        · rw [List.foldl_cons]
          simpa [hcmp] using hfold
        · rcases hmem with h1 | h1
          · exact Or.inl h1
          · exact Or.inr (List.mem_cons.mpr (Or.inr h1))
        · exact hle
        · intro k hk
          rcases List.mem_cons.mp hk with h1 | h1
          · rw [h1]
            omega
          · exact hall k h1

theorem selFirst_valid (prio : Nat → Nat) : SelValid prio (selFirst prio) := by
  constructor
  · rfl
  · intro q hq
    obtain ⟨x, rest, rfl⟩ := List.exists_cons_of_ne_nil hq
    obtain ⟨i, hfold, hmem, hle, hall⟩ := selFirst_go prio rest x
    refine ⟨i, ?_, ?_, ?_⟩
    · show (x :: rest).foldl _ none = some i
      rw [List.foldl_cons]
      exact hfold
    · rcases hmem with h1 | h1
      · exact h1 ▸ List.mem_cons_self x rest
      · exact List.mem_cons.mpr (Or.inr h1)
    · intro k hk
      rcases List.mem_cons.mp hk with h1 | h1
      · rw [h1]
        exact hle
      · exact hall k h1

theorem selLast_go (prio : Nat → Nat) :
    ∀ (q : List Nat) (j : Nat),
      ∃ i, q.foldl
          (fun acc x =>
            match acc with
            | none => some x
            | some y => if prio y ≤ prio x then some x else acc)
          (some j) = some i ∧
        (i = j ∨ i ∈ q) ∧ prio j ≤ prio i ∧ ∀ k ∈ q, prio k ≤ prio i := by
  intro q
  induction q with
  | nil =>
      intro j
      exact ⟨j, rfl, Or.inl rfl, le_refl _, fun k hk => absurd hk (List.not_mem_nil k)⟩
  | cons x rest ih =>
      intro j
      by_cases hcmp : prio j ≤ prio x
      · obtain ⟨i, hfold, hmem, hle, hall⟩ := ih x
        refine ⟨i, ?_, ?_, ?_, ?_⟩
        · rw [List.foldl_cons]
          simpa [hcmp] using hfold
        · rcases hmem with h1 | h1
          · exact Or.inr (h1 ▸ List.mem_cons_self x rest)
          · exact Or.inr (List.mem_cons.mpr (Or.inr h1))
        · omega
        · intro k hk
          rcases List.mem_cons.mp hk with h1 | h1
          · rw [h1]
            exact hle
          · exact hall k h1
      · obtain ⟨i, hfold, hmem, hle, hall⟩ := ih j
        refine ⟨i, ?_, ?_, ?_, ?_⟩
        · rw [List.foldl_cons]
          simpa [hcmp] using hfold
        · rcases hmem with h1 | h1
          · exact Or.inl h1
          · exact Or.inr (List.mem_cons.mpr (Or.inr h1))
        · exact hle
        · intro k hk
          rcases List.mem_cons.mp hk with h1 | h1
          · rw [h1]
            omega
          · exact hall k h1

theorem selLast_valid (prio : Nat → Nat) : SelValid prio (selLast prio) := by
  constructor
  · rfl
  · intro q hq
    obtain ⟨x, rest, rfl⟩ := List.exists_cons_of_ne_nil hq
    obtain ⟨i, hfold, hmem, hle, hall⟩ := selLast_go prio rest x
    refine ⟨i, ?_, ?_, ?_⟩
    · show (x :: rest).foldl _ none = some i
      rw [List.foldl_cons]
      exact hfold
    · rcases hmem with h1 | h1
      · exact h1 ▸ List.mem_cons_self x rest
      · exact List.mem_cons.mpr (Or.inr h1)
    · intro k hk
      rcases List.mem_cons.mp hk with h1 | h1
      · rw [h1]
        exact hle
      · exact hall k h1

theorem drainF_preserves {txs : List Tx} {prio : Nat → Nat}
    {sel : List Nat → Option Nat} (hsel : SelValid prio sel) :
    ∀ (fuel : Nat) (st : DrainSt), GenInv txs st.nodes st →
      GenInv txs (drainF txs sel fuel st).nodes (drainF txs sel fuel st) := by
  intro fuel
  induction fuel with
  | zero =>
      intro st h
      exact h
  | succ f ih =>
      intro st h
      rw [drainF]
      by_cases hdone : st.nodes.length = txs.length
      · rw [if_pos hdone]
        exact h
      · rw [if_neg hdone]
        exact ih _ (layerStep_inv hsel h).1

theorem path_pop_order {txs : List Tx} {prio : Nat → Nat}
    {sel : List Nat → Option Nat} (hwf : ∀ tx ∈ txs, Wf tx)
    (hsel : SelValid prio sel) {i j : Nat}
    (hpath : Relation.ReflTransGen (EdgeRel txs) i j) :
    (drain txs sel).nodes.indexOf i ≤ (drain txs sel).nodes.indexOf j := by
  obtain ⟨h, hlen⟩ := drain_inv hwf hsel
  have hperm := drain_nodes_perm hwf hsel
  induction hpath with
  | refl => exact le_refl _
  | tail hsub hedge ih =>
      obtain ⟨hc, hbpred⟩ := hedge
      have hcin : _ ∈ (drain txs sel).nodes :=
        hperm.mem_iff.mpr (List.mem_range.mpr hc)
      obtain ⟨_, hlt⟩ := h.predsOrder _ hcin _ hbpred
      omega

theorem txAt_mem {txs : List Tx} {i : Nat} (hi : i < txs.length) :
    txAt txs i ∈ txs := by
  unfold txAt
  rw [List.getD_eq_getElem _ _ hi]
  exact List.getElem_mem hi

/-! ## Claim theorems -/

/-- C1: for every two transactions A and B where A is inserted before B
(insertion index `iA < iB`) and both write the same account `a`, the
conflict graph built by the drain protocol contains a path from A to B
(directly or along the per-account chain of intermediate writers and
readers), and A is popped no later than B: both appear in the emitted
node list and A's position is at most B's.  Holds for every pop selection
consistent with the code's priority comparison. -/
theorem claim_C1 {txs : List Tx} {prio : Nat → Nat}
    {sel : List Nat → Option Nat} (hwf : ∀ tx ∈ txs, Wf tx)
    (hsel : SelValid prio sel) {a iA iB : Nat} (hAB : iA < iB)
    (hiB : iB < txs.length) (hwA : a ∈ (txAt txs iA).writable)
    (hwB : a ∈ (txAt txs iB).writable) :
    Relation.ReflTransGen (EdgeRel txs) iA iB ∧
      iA ∈ (drain txs sel).nodes ∧ iB ∈ (drain txs sel).nodes ∧
      (drain txs sel).nodes.indexOf iA ≤ (drain txs sel).nodes.indexOf iB := by
  have hpath := (buildInv hwf).writerPath a iA iB hAB hiB hwA hwB
  have hperm := drain_nodes_perm hwf hsel
  exact ⟨hpath,
    hperm.mem_iff.mpr (List.mem_range.mpr (by omega)),
    hperm.mem_iff.mpr (List.mem_range.mpr hiB),
    path_pop_order hwf hsel hpath⟩

theorem claim_C1_witness :
    Relation.ReflTransGen
        (EdgeRel [⟨[0], [], 30⟩, ⟨[0], [1], 20⟩, ⟨[], [1], 10⟩]) 0 1 ∧
      0 ∈ (drain [⟨[0], [], 30⟩, ⟨[0], [1], 20⟩, ⟨[], [1], 10⟩]
          (selFirst (prioOf [⟨[0], [], 30⟩, ⟨[0], [1], 20⟩, ⟨[], [1], 10⟩]))).nodes ∧
      1 ∈ (drain [⟨[0], [], 30⟩, ⟨[0], [1], 20⟩, ⟨[], [1], 10⟩]
          (selFirst (prioOf [⟨[0], [], 30⟩, ⟨[0], [1], 20⟩, ⟨[], [1], 10⟩]))).nodes ∧
      (drain [⟨[0], [], 30⟩, ⟨[0], [1], 20⟩, ⟨[], [1], 10⟩]
          (selFirst (prioOf [⟨[0], [], 30⟩, ⟨[0], [1], 20⟩, ⟨[], [1], 10⟩]))).nodes.indexOf 0 ≤
        (drain [⟨[0], [], 30⟩, ⟨[0], [1], 20⟩, ⟨[], [1], 10⟩]
          (selFirst (prioOf [⟨[0], [], 30⟩, ⟨[0], [1], 20⟩, ⟨[], [1], 10⟩]))).nodes.indexOf 1 :=
  @claim_C1 [⟨[0], [], 30⟩, ⟨[0], [1], 20⟩, ⟨[], [1], 10⟩]
    (prioOf [⟨[0], [], 30⟩, ⟨[0], [1], 20⟩, ⟨[], [1], 10⟩])
    (selFirst (prioOf [⟨[0], [], 30⟩, ⟨[0], [1], 20⟩, ⟨[], [1], 10⟩]))
    (by decide)
    (selFirst_valid (prioOf [⟨[0], [], 30⟩, ⟨[0], [1], 20⟩, ⟨[], [1], 10⟩]))
    0 0 1 (by decide) (by decide) (by decide) (by decide)

/-- C3: an edge from a popped node to a target transaction is surfaced
to the exported edge list only at the moment the target transitions to
ready: every exported edge goes from a recorded blocking predecessor of
its target, and each transaction receives exactly one exported incoming
edge if it had any blocking predecessor, and none otherwise — a conflict
that leaves the target still blocked on another account contributes no
visible edge. -/
theorem claim_C3 {txs : List Tx} {prio : Nat → Nat}
    {sel : List Nat → Option Nat} (hwf : ∀ tx ∈ txs, Wf tx)
    (hsel : SelValid prio sel) :
    (∀ e ∈ (drain txs sel).edges, e.1 ∈ predsOf txs e.2) ∧
      (∀ t, t < txs.length →
        (drain txs sel).edges.countP (fun e => decide (e.2 = t)) =
          if predsOf txs t = [] then 0 else 1) := by
  obtain ⟨h, hlen⟩ := drain_inv hwf hsel
  have hperm := drain_nodes_perm hwf hsel
  constructor
  · exact fun e he => (h.edgesPred e he).2
  · intro t ht
    have hcount := h.edgesCount t ht
    by_cases hnil : predsOf txs t = []
    · rw [if_pos hnil] at hcount ⊢
      exact hcount
    · rw [if_neg hnil] at hcount ⊢
      rw [if_pos] at hcount
      · exact hcount
      · intro p hp
        have hpt : p < t := (buildInv hwf).predsLt t p hp
        exact hperm.mem_iff.mpr (List.mem_range.mpr (by omega))

theorem claim_C3_witness :
    (∀ e ∈ (drain [⟨[0], [], 30⟩, ⟨[0], [1], 20⟩, ⟨[], [1], 10⟩]
        (selFirst (prioOf [⟨[0], [], 30⟩, ⟨[0], [1], 20⟩, ⟨[], [1], 10⟩]))).edges,
      e.1 ∈ predsOf [⟨[0], [], 30⟩, ⟨[0], [1], 20⟩, ⟨[], [1], 10⟩] e.2) ∧
      (∀ t, t < ([⟨[0], [], 30⟩, ⟨[0], [1], 20⟩, ⟨[], [1], 10⟩] : List Tx).length →
        (drain [⟨[0], [], 30⟩, ⟨[0], [1], 20⟩, ⟨[], [1], 10⟩]
            (selFirst (prioOf [⟨[0], [], 30⟩, ⟨[0], [1], 20⟩, ⟨[], [1], 10⟩]))).edges.countP
            (fun e => decide (e.2 = t)) =
          if predsOf [⟨[0], [], 30⟩, ⟨[0], [1], 20⟩, ⟨[], [1], 10⟩] t = [] then 0 else 1) :=
  claim_C3 (by decide)
    (selFirst_valid (prioOf [⟨[0], [], 30⟩, ⟨[0], [1], 20⟩, ⟨[], [1], 10⟩]))

/-- C4: for every insertion sequence in valid (non-increasing) priority
order, the exported edge relation produced by the drain protocol is
acyclic: no sequence of exported edges leads from a node back to itself.
(The proof does not even need the priority-order hypothesis: every edge
runs from an earlier insertion index to a later one.) -/
theorem claim_C4 {txs : List Tx} {prio : Nat → Nat}
    {sel : List Nat → Option Nat} (hwf : ∀ tx ∈ txs, Wf tx)
    (hsel : SelValid prio sel)
    (_hsorted : txs.Pairwise (fun x y => y.priority ≤ x.priority)) :
    ∀ t, ¬ Relation.TransGen (fun p q => (p, q) ∈ (drain txs sel).edges) t t := by
  intro t hcyc
  obtain ⟨h, _⟩ := drain_inv hwf hsel
  have hmono : ∀ p q : Nat, (p, q) ∈ (drain txs sel).edges → p < q := by
    intro p q hpq
    obtain ⟨hq, hp⟩ := h.edgesPred (p, q) hpq
    exact (buildInv hwf).predsLt q p hp
  have h2 := Relation.TransGen.mono hmono hcyc
  have htrans : Transitive (fun a b : Nat => a < b) := fun a b c h1 h2 =>
    Nat.lt_trans h1 h2
  rw [Relation.transGen_eq_self htrans] at h2
  omega

theorem claim_C4_witness :
    ¬ Relation.TransGen
      (fun p q => (p, q) ∈ (drain [⟨[0], [], 30⟩, ⟨[0], [1], 20⟩, ⟨[], [1], 10⟩]
        (selFirst (prioOf [⟨[0], [], 30⟩, ⟨[0], [1], 20⟩, ⟨[], [1], 10⟩]))).edges) 1 1 :=
  claim_C4 (by decide)
    (selFirst_valid (prioOf [⟨[0], [], 30⟩, ⟨[0], [1], 20⟩, ⟨[], [1], 10⟩]))
    (by decide) 1

/-- C10: in the exported graph document, every edge's source and target
name nodes present in the emitted node list (which lists every inserted
transaction exactly once), and each edge's source node appears strictly
earlier in the node list than its target node — node emission order is a
topological order of the exported edge relation. -/
theorem claim_C10 {txs : List Tx} {prio : Nat → Nat}
    {sel : List Nat → Option Nat} (hwf : ∀ tx ∈ txs, Wf tx)
    (hsel : SelValid prio sel) :
    (drain txs sel).nodes.Perm (List.range txs.length) ∧
      ∀ e ∈ (drain txs sel).edges,
        e.1 ∈ (drain txs sel).nodes ∧ e.2 ∈ (drain txs sel).nodes ∧
          (drain txs sel).nodes.indexOf e.1 < (drain txs sel).nodes.indexOf e.2 := by
  obtain ⟨h, hlen⟩ := drain_inv hwf hsel
  refine ⟨drain_nodes_perm hwf hsel, ?_⟩
  intro e he
  have h1 : e.1 ∈ (drain txs sel).nodes :=
    h.resolvedSub e.1 (h.edgesSrcResolved e he)
  have h2 : e.2 ∈ (drain txs sel).nodes := by
    rcases h.edgesTarget e he with hq | hn
    · rw [drain_queue_nil hwf hsel] at hq
      cases hq
    · exact hn
  exact ⟨h1, h2, h.edgesIdx e he h2⟩

theorem claim_C10_witness :
    (drain [⟨[0], [], 30⟩, ⟨[0], [1], 20⟩, ⟨[], [1], 10⟩]
        (selFirst (prioOf [⟨[0], [], 30⟩, ⟨[0], [1], 20⟩, ⟨[], [1], 10⟩]))).nodes.Perm
      (List.range ([⟨[0], [], 30⟩, ⟨[0], [1], 20⟩, ⟨[], [1], 10⟩] : List Tx).length) ∧
      ∀ e ∈ (drain [⟨[0], [], 30⟩, ⟨[0], [1], 20⟩, ⟨[], [1], 10⟩]
          (selFirst (prioOf [⟨[0], [], 30⟩, ⟨[0], [1], 20⟩, ⟨[], [1], 10⟩]))).edges,
        e.1 ∈ (drain [⟨[0], [], 30⟩, ⟨[0], [1], 20⟩, ⟨[], [1], 10⟩]
            (selFirst (prioOf [⟨[0], [], 30⟩, ⟨[0], [1], 20⟩, ⟨[], [1], 10⟩]))).nodes ∧
          e.2 ∈ (drain [⟨[0], [], 30⟩, ⟨[0], [1], 20⟩, ⟨[], [1], 10⟩]
            (selFirst (prioOf [⟨[0], [], 30⟩, ⟨[0], [1], 20⟩, ⟨[], [1], 10⟩]))).nodes ∧
          (drain [⟨[0], [], 30⟩, ⟨[0], [1], 20⟩, ⟨[], [1], 10⟩]
            (selFirst (prioOf [⟨[0], [], 30⟩, ⟨[0], [1], 20⟩, ⟨[], [1], 10⟩]))).nodes.indexOf e.1 <
            (drain [⟨[0], [], 30⟩, ⟨[0], [1], 20⟩, ⟨[], [1], 10⟩]
              (selFirst (prioOf [⟨[0], [], 30⟩, ⟨[0], [1], 20⟩, ⟨[], [1], 10⟩]))).nodes.indexOf e.2 :=
  claim_C10 (by decide)
    (selFirst_valid (prioOf [⟨[0], [], 30⟩, ⟨[0], [1], 20⟩, ⟨[], [1], 10⟩]))

/-- C2 counterexample: the claim's tie-break does not hold of the code.
`PriorityIndex`'s `Ord` implementation compares priorities alone, so two
ready transactions with equal priority and different insertion indices
compare as equal, and the pop order among them is whatever the underlying
priority queue serves.  `selLast` is a selection function fully
consistent with that comparison (it always returns a maximal-priority
member of the ready queue), yet on two equal-priority, non-conflicting
transactions it pops insertion index 1 before insertion index 0 —
refuting "ties broken by ascending insertion index (earliest arrival
first)". -/
theorem claim_C2_counterexample :
    SelValid (prioOf [⟨[0], [], 7⟩, ⟨[1], [], 7⟩])
        (selLast (prioOf [⟨[0], [], 7⟩, ⟨[1], [], 7⟩])) ∧
      (drain [⟨[0], [], 7⟩, ⟨[1], [], 7⟩]
          (selLast (prioOf [⟨[0], [], 7⟩, ⟨[1], [], 7⟩]))).nodes = [1, 0] ∧
      priorityIndexCmp (7, 0) (7, 1) = Ordering.eq :=
  ⟨selLast_valid (prioOf [⟨[0], [], 7⟩, ⟨[1], [], 7⟩]), by decide, by decide⟩

/-- C2 (amended): at every stage of the drain loop, `pop()` removes and
returns a transaction with in-degree zero (ready: in the ready queue,
not yet popped, remaining blocked count zero) of maximal priority among
the ready transactions, and returns the none-signal exactly when no
ready transaction remains; the order among equal-priority ready
transactions is decided by the underlying priority queue, not by
insertion index. -/
theorem claim_C2 {txs : List Tx} {sel : List Nat → Option Nat}
    (hsel : SelValid (prioOf txs) sel) (fuel : Nat) :
    ((drainF txs sel fuel (initSt txs)).queue = [] ↔
        popAll sel (drainF txs sel fuel (initSt txs)).queue = []) ∧
      ∀ i rest,
        popAll sel (drainF txs sel fuel (initSt txs)).queue = i :: rest →
          i ∈ (drainF txs sel fuel (initSt txs)).queue ∧
            i ∉ (drainF txs sel fuel (initSt txs)).nodes ∧
            (drainF txs sel fuel (initSt txs)).blocked i = 0 ∧
            ∀ j ∈ (drainF txs sel fuel (initSt txs)).queue,
              prioOf txs j ≤ prioOf txs i := by
  have h : GenInv txs (drainF txs sel fuel (initSt txs)).nodes
      (drainF txs sel fuel (initSt txs)) :=
    drainF_preserves hsel fuel (initSt txs) (genInv_init txs)
  have hperm := popAll_perm hsel (drainF txs sel fuel (initSt txs)).queue
  constructor
  · constructor
    · intro hq
      rw [hq, popAll_nil]
    · intro hp
      have := hperm.length_eq
      rw [hp] at this
      exact List.eq_nil_of_length_eq_zero this.symm
  · intro i rest heq
    have hqne : (drainF txs sel fuel (initSt txs)).queue ≠ [] := by
      intro hq
      rw [hq, popAll_nil] at heq
      cases heq
    obtain ⟨i2, rest2, heq2, hi2q, hmax2⟩ := popAll_head hsel hqne
    rw [heq] at heq2
    injection heq2 with hii hrr
    subst hii
    have hilt := h.queueLt _ hi2q
    obtain ⟨hin, hpreds⟩ := (h.queueIff _ hilt).mp hi2q
    refine ⟨hi2q, hin, ?_, hmax2⟩
    rw [h.blockedEq _ hilt, List.length_eq_zero, List.filter_eq_nil]
    intro q hq
    simp only [decide_eq_true_eq, Decidable.not_not]
    exact hpreds q hq

theorem claim_C2_witness :
    ((drainF [⟨[0], [], 30⟩, ⟨[0], [1], 20⟩, ⟨[], [1], 10⟩]
          (selFirst (prioOf [⟨[0], [], 30⟩, ⟨[0], [1], 20⟩, ⟨[], [1], 10⟩])) 0
          (initSt [⟨[0], [], 30⟩, ⟨[0], [1], 20⟩, ⟨[], [1], 10⟩])).queue = [] ↔
        popAll (selFirst (prioOf [⟨[0], [], 30⟩, ⟨[0], [1], 20⟩, ⟨[], [1], 10⟩]))
            (drainF [⟨[0], [], 30⟩, ⟨[0], [1], 20⟩, ⟨[], [1], 10⟩]
              (selFirst (prioOf [⟨[0], [], 30⟩, ⟨[0], [1], 20⟩, ⟨[], [1], 10⟩])) 0
              (initSt [⟨[0], [], 30⟩, ⟨[0], [1], 20⟩, ⟨[], [1], 10⟩])).queue = []) ∧
      ∀ i rest,
        popAll (selFirst (prioOf [⟨[0], [], 30⟩, ⟨[0], [1], 20⟩, ⟨[], [1], 10⟩]))
            (drainF [⟨[0], [], 30⟩, ⟨[0], [1], 20⟩, ⟨[], [1], 10⟩]
              (selFirst (prioOf [⟨[0], [], 30⟩, ⟨[0], [1], 20⟩, ⟨[], [1], 10⟩])) 0
              (initSt [⟨[0], [], 30⟩, ⟨[0], [1], 20⟩, ⟨[], [1], 10⟩])).queue = i :: rest →
          i ∈ (drainF [⟨[0], [], 30⟩, ⟨[0], [1], 20⟩, ⟨[], [1], 10⟩]
              (selFirst (prioOf [⟨[0], [], 30⟩, ⟨[0], [1], 20⟩, ⟨[], [1], 10⟩])) 0
              (initSt [⟨[0], [], 30⟩, ⟨[0], [1], 20⟩, ⟨[], [1], 10⟩])).queue ∧
            i ∉ (drainF [⟨[0], [], 30⟩, ⟨[0], [1], 20⟩, ⟨[], [1], 10⟩]
              (selFirst (prioOf [⟨[0], [], 30⟩, ⟨[0], [1], 20⟩, ⟨[], [1], 10⟩])) 0
              (initSt [⟨[0], [], 30⟩, ⟨[0], [1], 20⟩, ⟨[], [1], 10⟩])).nodes ∧
            (drainF [⟨[0], [], 30⟩, ⟨[0], [1], 20⟩, ⟨[], [1], 10⟩]
              (selFirst (prioOf [⟨[0], [], 30⟩, ⟨[0], [1], 20⟩, ⟨[], [1], 10⟩])) 0
              (initSt [⟨[0], [], 30⟩, ⟨[0], [1], 20⟩, ⟨[], [1], 10⟩])).blocked i = 0 ∧
            ∀ j ∈ (drainF [⟨[0], [], 30⟩, ⟨[0], [1], 20⟩, ⟨[], [1], 10⟩]
              (selFirst (prioOf [⟨[0], [], 30⟩, ⟨[0], [1], 20⟩, ⟨[], [1], 10⟩])) 0
              (initSt [⟨[0], [], 30⟩, ⟨[0], [1], 20⟩, ⟨[], [1], 10⟩])).queue,
              prioOf [⟨[0], [], 30⟩, ⟨[0], [1], 20⟩, ⟨[], [1], 10⟩] j ≤
                prioOf [⟨[0], [], 30⟩, ⟨[0], [1], 20⟩, ⟨[], [1], 10⟩] i :=
  claim_C2
    (selFirst_valid (prioOf [⟨[0], [], 30⟩, ⟨[0], [1], 20⟩, ⟨[], [1], 10⟩])) 0

/-- C5: two transactions that only read their common accounts (every
account touched by both is read-only in both) get no blocking edge
between them in either direction — neither in the conflict graph nor in
the exported edge list — and they can share a ready layer: with two
transactions that both only read account 5, the drain produces the
single layer `[0, 1]`. -/
theorem claim_C5 :
    (∀ (txs : List Tx) (prio : Nat → Nat) (sel : List Nat → Option Nat),
        (∀ tx ∈ txs, Wf tx) → SelValid prio sel →
        ∀ i j, i < txs.length → j < txs.length →
          (∀ a, touches (txAt txs i) a → touches (txAt txs j) a →
            a ∈ (txAt txs i).readonly ∧ a ∈ (txAt txs j).readonly) →
          ¬EdgeRel txs i j ∧ ¬EdgeRel txs j i ∧
            (i, j) ∉ (drain txs sel).edges ∧ (j, i) ∉ (drain txs sel).edges) ∧
      (drain [⟨[], [5], 9⟩, ⟨[], [5], 9⟩]
          (selFirst (prioOf [⟨[], [5], 9⟩, ⟨[], [5], 9⟩]))).layers = [[0, 1]] := by
  constructor
  · intro txs prio sel hwf hsel i j hi hj hcommon
    have key : ∀ u v : Nat, u < txs.length → v < txs.length →
        (∀ a, touches (txAt txs u) a → touches (txAt txs v) a →
          a ∈ (txAt txs u).readonly ∧ a ∈ (txAt txs v).readonly) →
        ¬EdgeRel txs u v := by
      intro u v hu hv hc hedge
      obtain ⟨a, hcase⟩ := (buildInv hwf).edgeKinds u v hedge
      rcases hcase with ⟨hw, ht⟩ | ⟨hr, hw⟩
      · obtain ⟨hro, _⟩ := hc a (Or.inl hw) ht
        exact (hwf _ (txAt_mem hu)).2.2 a hw hro
      · obtain ⟨_, hro⟩ := hc a (Or.inr hr) (Or.inl hw)
        exact (hwf _ (txAt_mem hv)).2.2 a hw hro
    have hcomm2 : ∀ a, touches (txAt txs j) a → touches (txAt txs i) a →
        a ∈ (txAt txs j).readonly ∧ a ∈ (txAt txs i).readonly := by
      intro a h1 h2
      obtain ⟨x, y⟩ := hcommon a h2 h1
      exact ⟨y, x⟩
    have hij := key i j hi hj hcommon
    have hji := key j i hj hi hcomm2
    obtain ⟨hinv, _⟩ := drain_inv hwf hsel
    refine ⟨hij, hji, ?_, ?_⟩
    · intro hmem
      obtain ⟨h1, h2⟩ := hinv.edgesPred (i, j) hmem
      exact hij ⟨h1, h2⟩
    · intro hmem
      obtain ⟨h1, h2⟩ := hinv.edgesPred (j, i) hmem
      exact hji ⟨h1, h2⟩
  · decide

theorem claim_C5_witness :
    (¬EdgeRel [⟨[], [5], 9⟩, ⟨[], [5], 9⟩] 0 1 ∧
        ¬EdgeRel [⟨[], [5], 9⟩, ⟨[], [5], 9⟩] 1 0 ∧
        (0, 1) ∉ (drain [⟨[], [5], 9⟩, ⟨[], [5], 9⟩]
          (selFirst (prioOf [⟨[], [5], 9⟩, ⟨[], [5], 9⟩]))).edges ∧
        (1, 0) ∉ (drain [⟨[], [5], 9⟩, ⟨[], [5], 9⟩]
          (selFirst (prioOf [⟨[], [5], 9⟩, ⟨[], [5], 9⟩]))).edges) ∧
      (drain [⟨[], [5], 9⟩, ⟨[], [5], 9⟩]
          (selFirst (prioOf [⟨[], [5], 9⟩, ⟨[], [5], 9⟩]))).layers = [[0, 1]] :=
  ⟨claim_C5.1 [⟨[], [5], 9⟩, ⟨[], [5], 9⟩]
      (prioOf [⟨[], [5], 9⟩, ⟨[], [5], 9⟩])
      (selFirst (prioOf [⟨[], [5], 9⟩, ⟨[], [5], 9⟩]))
      (by decide) (selFirst_valid (prioOf [⟨[], [5], 9⟩, ⟨[], [5], 9⟩]))
      0 1 (by decide) (by decide)
      (by
        intro a h1 h2
        have h1' : a ∈ (txAt [⟨[], [5], 9⟩, ⟨[], [5], 9⟩] 0).writable ∨
            a ∈ (txAt [⟨[], [5], 9⟩, ⟨[], [5], 9⟩] 0).readonly := h1
        simp [txAt] at h1'
        subst h1'
        exact ⟨by decide, by decide⟩),
    claim_C5.2⟩

/-- C6: for the window filter of the packet counter with no lower bound,
`started` is true from the first event onward; `done` starts false and
becomes true exactly on the first event whose position strictly exceeds
the inclusive upper bound; both flags are monotonic (once true, never
reset); and on positions [1,3,5,6] with end bound 5 the observed flags
are started = [T,T,T,T] and done = [F,F,F,T]. -/
theorem claim_C6 :
    (∀ (st : PacketCounterW) (pos : Nat), st.started = true →
        (handleEventFlags st pos).started = true) ∧
      (∀ (st : PacketCounterW) (pos : Nat), st.done = true →
        (handleEventFlags st pos).done = true) ∧
      (∀ (e : Option Nat) (events : List Nat),
        ∀ r ∈ flagsTrace none e events, r.1 = true) ∧
      (∀ (st : PacketCounterW) (pos ub : Nat), st.endTs = some ub →
        st.done = false → ((handleEventFlags st pos).done = true ↔ ub < pos)) ∧
      flagsTrace none (some 5) [1, 3, 5, 6] =
        [(true, false), (true, false), (true, false), (true, true)] := by
  have hstarted : ∀ (st : PacketCounterW) (pos : Nat), st.started = true →
      (handleEventFlags st pos).started = true := by
    intro st pos hs
    unfold handleEventFlags
    by_cases hd : st.done
    · rw [if_pos hd]
      exact hs
    · rw [if_neg hd]
      show (st.started || _) = true
      rw [hs, Bool.true_or]
  refine ⟨hstarted, ?_, ?_, ?_, ?_⟩
  · intro st pos hd
    unfold handleEventFlags
    rw [if_pos hd]
    exact hd
  · intro e events r hr
    have hscan : ∀ (evs : List Nat) (st : PacketCounterW), st.started = true →
        ∀ s ∈ evs.scanl handleEventFlags st, s.started = true := by
      intro evs
      induction evs with
      | nil =>
          intro st hst s hs
          simp only [List.scanl] at hs
          rw [List.mem_singleton.mp hs]
          exact hst
      | cons ev rest ih =>
          intro st hst s hs
          simp only [List.scanl] at hs
          rcases List.mem_cons.mp hs with h1 | h1
          · rw [h1]
            exact hst
          · exact ih (handleEventFlags st ev) (hstarted st ev hst) s h1
    unfold flagsTrace at hr
    obtain ⟨s, hsmem, rfl⟩ := List.mem_map.mp hr
    exact hscan events (PacketCounterW.new none e) rfl s
      (List.mem_of_mem_tail hsmem)
  · intro st pos ub hub hd
    unfold handleEventFlags
    rw [if_neg (by rw [hd]; exact Bool.false_ne_true)]
    show (st.done || _) = true ↔ _
    rw [hd, hub, Bool.false_or]
    simp
  · decide

/-- C7 counterexample: the claim asserts the requested-compute-units
value equals the explicitly set compute-unit limit whenever one is
present, with the 1_400_000 clamp applying only to the default.  The
code applies `.max(1_400_000)` to the explicit limit as well: a
transaction whose only instruction sets a compute-unit limit of 100 gets
requested CUs 1_400_000, not 100. -/
theorem claim_C7_counterexample :
    getPriorityAndRequestedCus
        [ProgIx.cb (some (CbIx.setComputeUnitLimit 100))] =
      Except.ok (0, 1400000) ∧ (1400000 : Nat) ≠ 100 :=
  ⟨rfl, by decide⟩

/-- C7 (amended): for every decoded transaction the requested
compute-units value equals the explicitly set compute-unit limit when
one is present **clamped up to at least 1_400_000**; when no limit is
set, the default non-compute-budget-instruction-count × 200_000 applies
with the same clamp. -/
theorem claim_C7 :
    ∀ (ixs : List ProgIx) (p r : Nat),
      getPriorityAndRequestedCus ixs = Except.ok (p, r) →
      r = max ((explicitCuLimit ixs).getD (nonCbCount ixs * 200000)) 1400000 := by
  have hfold : ∀ (ixs : List ProgIx) (c p : Nat) (r : Option Nat)
      (out : Nat × Nat × Option Nat), cbFold (c, p, r) ixs = Except.ok out →
      out.2.2 = (explicitCuLimit ixs).orElse (fun _ => r) ∧
        out.1 = c + nonCbCount ixs := by
    intro ixs
    induction ixs with
    | nil =>
        intro c p r out hout
        injection hout with hout
        subst hout
        simp [explicitCuLimit, nonCbCount]
    | cons ix rest ih =>
        intro c p r out hout
        cases ix with
        | nonCb =>
            obtain ⟨h1, h2⟩ := ih (c + 1) p r out hout
            refine ⟨h1, ?_⟩
            rw [h2]
            show c + 1 + nonCbCount rest = c + (nonCbCount rest + 1)
            omega
        | cb dec =>
            cases dec with
            | none => cases hout
            | some cbix =>
                cases cbix with
                | requestUnitsDeprecated units fee =>
                    by_cases hu : units = 0
                    · rw [show cbFold (c, p, r)
                          (ProgIx.cb (some (CbIx.requestUnitsDeprecated units fee)) :: rest) =
                          Except.error () from by simp [cbFold, hu]] at hout
                      cases hout
                    · rw [show cbFold (c, p, r)
                          (ProgIx.cb (some (CbIx.requestUnitsDeprecated units fee)) :: rest) =
                          cbFold (c, fee * 1000000 / units, some units) rest from by
                            simp [cbFold, hu]] at hout
                      obtain ⟨h1, h2⟩ := ih c _ (some units) out hout
                      refine ⟨?_, h2⟩
                      rw [h1]
                      show _ = ((explicitCuLimit rest).orElse
                        (fun _ => some units)).orElse (fun _ => r)
                      cases explicitCuLimit rest <;> rfl
                | requestHeapFrame =>
                    obtain ⟨h1, h2⟩ := ih c p r out hout
                    exact ⟨h1, h2⟩
                | setComputeUnitLimit units =>
                    obtain ⟨h1, h2⟩ := ih c p (some units) out hout
                    refine ⟨?_, h2⟩
                    rw [h1]
                    show _ = ((explicitCuLimit rest).orElse
                      (fun _ => some units)).orElse (fun _ => r)
                    cases explicitCuLimit rest <;> rfl
                | setComputeUnitPrice price =>
                    obtain ⟨h1, h2⟩ := ih c price r out hout
                    exact ⟨h1, h2⟩
                | setLoadedAccountsDataSizeLimit =>
                    obtain ⟨h1, h2⟩ := ih c p r out hout
                    exact ⟨h1, h2⟩
  intro ixs p r hok
  unfold getPriorityAndRequestedCus at hok
  cases hcb : cbFold (0, 0, none) ixs with
  | error e =>
      rw [hcb] at hok
      cases hok
  | ok out =>
      rw [hcb] at hok
      obtain ⟨h1, h2⟩ := hfold ixs 0 0 none out hcb
      obtain ⟨c2, p2, r2⟩ := out
      injection hok with hok
      injection hok with hokp hokr
      subst hokr
      simp only at h1 h2
      have horelse : (explicitCuLimit ixs).orElse (fun _ => none) =
          explicitCuLimit ixs := by
        cases explicitCuLimit ixs <;> rfl
      rw [h1, horelse, h2, Nat.zero_add]

theorem claim_C7_witness :
    getPriorityAndRequestedCus [ProgIx.nonCb,
        ProgIx.cb (some (CbIx.setComputeUnitLimit 1500000))] =
      Except.ok (0, 1500000) ∧
      (1500000 : Nat) =
        max ((explicitCuLimit [ProgIx.nonCb,
          ProgIx.cb (some (CbIx.setComputeUnitLimit 1500000))]).getD
            (nonCbCount [ProgIx.nonCb,
              ProgIx.cb (some (CbIx.setComputeUnitLimit 1500000))] * 200000))
          1400000 :=
  ⟨rfl, claim_C7 [ProgIx.nonCb,
    ProgIx.cb (some (CbIx.setComputeUnitLimit 1500000))] 0 1500000 rfl⟩

/-- C9: `get_priority_and_requested_cus` always returns a
requested-compute-units value of at least 1_400_000 — the final
`.max(1_400_000)` applies whether or not a compute-unit limit was
explicitly set, including when the explicit limit is below the bound. -/
theorem claim_C9 :
    ∀ (ixs : List ProgIx) (p r : Nat),
      getPriorityAndRequestedCus ixs = Except.ok (p, r) → 1400000 ≤ r := by
  intro ixs p r hok
  unfold getPriorityAndRequestedCus at hok
  cases hcb : cbFold (0, 0, none) ixs with
  | error e =>
      rw [hcb] at hok
      cases hok
  | ok out =>
      rw [hcb] at hok
      obtain ⟨c2, p2, r2⟩ := out
      injection hok with hok
      injection hok with hokp hokr
      subst hokr
      exact Nat.le_max_right _ _

theorem claim_C9_witness :
    getPriorityAndRequestedCus
        [ProgIx.cb (some (CbIx.setComputeUnitLimit 100))] =
      Except.ok (0, 1400000) ∧ (1400000 : Nat) ≤ 1400000 :=
  ⟨rfl, claim_C9 [ProgIx.cb (some (CbIx.setComputeUnitLimit 100))] 0 1400000 rfl⟩

/-- C8 counterexample: a single record whose compute-budget instruction
data fails to decode makes the whole record-processing run return an
error (the source `unwrap`s the borsh decode, a panic), rather than
skipping the record and continuing — refuting "no single bad record
causes the whole run to abort". -/
theorem claim_C8_counterexample :
    collectTuples [⟨true, true, [ProgIx.cb none], true⟩] = Except.error () ∧
      collectTuples [⟨true, true, [ProgIx.cb none], true⟩] ≠ Except.ok [] :=
  ⟨rfl, fun h => Except.noConfusion h⟩

/-- C8 (amended): records whose transaction bytes fail bincode
deserialization, whose sanitization fails, or whose address-lookup
resolution fails are skipped and the stream continues; but a record
whose compute-budget instruction data fails borsh decoding aborts the
whole run (the `unwrap` panic in `get_priority_and_requested_cus`). -/
theorem claim_C8 :
    (∀ (r : TraceRecord) (rest : List TraceRecord), r.deserOk = false →
        collectTuples (r :: rest) = collectTuples rest) ∧
      (∀ (r : TraceRecord) (rest : List TraceRecord), r.svtOk = false →
        collectTuples (r :: rest) = collectTuples rest) ∧
      (∀ (r : TraceRecord) (rest : List TraceRecord) (pr : Nat × Nat),
        r.deserOk = true → r.svtOk = true → r.resolveOk = false →
        getPriorityAndRequestedCus r.ixs = Except.ok pr →
        collectTuples (r :: rest) = collectTuples rest) ∧
      (∀ (r : TraceRecord) (rest : List TraceRecord),
        r.deserOk = true → r.svtOk = true →
        getPriorityAndRequestedCus r.ixs = Except.error () →
        collectTuples (r :: rest) = Except.error ()) := by
  have hE : ∀ (r : TraceRecord) (rest : List TraceRecord),
      collectTuples (r :: rest) =
        (if r.deserOk = false then collectTuples rest
          else if r.svtOk = false then collectTuples rest
          else
            match getPriorityAndRequestedCus r.ixs with
            | Except.error e => Except.error e
            | Except.ok pr =>
                if r.resolveOk then (collectTuples rest).map (fun l => pr :: l)
                else collectTuples rest) :=
    fun r rest => rfl
  refine ⟨?_, ?_, ?_, ?_⟩
  · intro r rest h1
    simp [hE, h1]
  · intro r rest h2
    by_cases hd : r.deserOk = false
    · simp [hE, hd]
    · simp [hE, hd, h2]
  · intro r rest pr h1 h2 h3 h4
    simp [hE, h1, h2, h3, h4]
  · intro r rest h1 h2 h3
    simp [hE, h1, h2, h3]

theorem claim_C8_witness :
    collectTuples ([⟨false, true, [], true⟩] ++ [⟨true, true, [ProgIx.nonCb], true⟩]) =
      collectTuples [⟨true, true, [ProgIx.nonCb], true⟩] :=
  claim_C8.1 ⟨false, true, [], true⟩ [⟨true, true, [ProgIx.nonCb], true⟩] rfl

theorem claim_C6_witness :
    (handleEventFlags (PacketCounterW.new none (some 5)) 1).started = true ∧
      (handleEventFlags ⟨none, some 5, true, true⟩ 9).done = true ∧
      ((true, false) : Bool × Bool).1 = true ∧
      ((handleEventFlags ⟨none, some 5, true, false⟩ 6).done = true ↔ 5 < 6) ∧
      flagsTrace none (some 5) [1, 3, 5, 6] =
        [(true, false), (true, false), (true, false), (true, true)] :=
  ⟨claim_C6.1 (PacketCounterW.new none (some 5)) 1 rfl,
    claim_C6.2.1 ⟨none, some 5, true, true⟩ 9 rfl,
    claim_C6.2.2.1 (some 5) [1, 3, 5, 6] (true, false) (by decide),
    claim_C6.2.2.2.1 ⟨none, some 5, true, false⟩ 6 5 rfl rfl,
    claim_C6.2.2.2.2⟩

end BankingTrace
